import Mathlib

/-!
# Command tree of the Matrix bot (`gitlab.com/silkeh/matrix-bot`)

A shallow embedding of `command.go`, `message.go`, `help.go`, `room.go` and the routing part
of `client.go`, followed by theorems about command resolution, execution, help text, message
construction, the allow-list and the matching of inbound events.

Modelling conventions.

* Go strings are Lean `String`s (sequences of Unicode scalar values); strings holding
  invalid UTF-8 are outside the model.
* `*Message` is `Option Message`, `nil` being `none`.
* A `map[string]*Command` is an association list looked up with `List.lookup`; a `nil` map
  and an empty map are both `[]` (every operation the code performs on `Subcommands`, that is
  lookup, `len` and `range`, treats them alike). Stored `*Command` values are never `nil`.
  `range` visits the list in order; Go leaves the order unspecified.
* A `MessageHandler` is a pure function, `nil` being `none`.
* Functions of other packages that the code calls are fields of `Lib`.
* The transport is seen through the `Outbox`, the list of the calls of `SendMessageEvent`
  made so far, which sending functions take and return; what the homeserver answers is a
  field of `Client`. A Go `error` is its message.
-/

namespace MatrixBot

/-- Functions of imported packages that the bot calls and whose code lies outside the
repository. -/
structure Lib where
  /-- The Markdown renderer: `blackfriday.Run` with `CommonExtensions`, on strings. -/
  render : String → String
  /-- The Unicode table behind `strconv.IsPrint` for runes above U+00FF. -/
  isPrintTable : Char → Bool
  /-- The Unicode table `White_Space` behind `unicode.IsSpace` for runes above U+00FF. -/
  isSpaceTable : Char → Bool

/-! ## `message.go` -/

/-- A formatted Matrix message (`Message`). -/
structure Message where
  MsgType : String
  Body : String
  FormattedBody : String
  Format : String
deriving DecidableEq, Repr

/-- Source `NewTextMessage`: only `Body` is set. -/
def NewTextMessage (text : String) : Message :=
  { MsgType := "", Body := text, FormattedBody := "", Format := "" }

/-- Source `NewHTMLMessage`: plain and HTML content with the HTML format tag. -/
def NewHTMLMessage (plain html : String) : Message :=
  { MsgType := "", Body := plain, FormattedBody := html, Format := "org.matrix.custom.html" }

/-- Source `NewMarkdownMessage`: the Markdown source is the plain body, its rendering the HTML body. -/
def NewMarkdownMessage (L : Lib) (markdown : String) : Message :=
  NewHTMLMessage markdown (L.render markdown)

/-! ## `fmt.Sprintf("%q", s)`, that is `strconv.Quote` -/

/-- The hexadecimal digits of `n`, `width` of them, most significant first (`lowerhex`). -/
def hexDigits (width n : Nat) : List Char :=
  (List.range width).reverse.map (fun i => Nat.digitChar ((n / 16 ^ i) % 16))

/-- Go's `strconv.IsPrint`: decided directly up to U+00FF, by the Unicode table above. -/
def IsPrint (L : Lib) (r : Char) : Bool :=
  if r.toNat ≤ 0xFF then
    if 0x20 ≤ r.toNat ∧ r.toNat < 0x7F then true
    else if 0xA1 ≤ r.toNat then r.toNat != 0xAD
    else false
  else L.isPrintTable r

/-- Go's `strconv.appendEscapedRune` for the double quote, neither ASCII-only nor graphic-only. -/
def appendEscapedRune (L : Lib) (r : Char) : List Char :=
  if r.toNat = 0x22 ∨ r.toNat = 0x5C then [Char.ofNat 0x5C, r]
  else if IsPrint L r then [r]
  else if r.toNat = 0x07 then [Char.ofNat 0x5C, 'a']
  else if r.toNat = 0x08 then [Char.ofNat 0x5C, 'b']
  else if r.toNat = 0x0C then [Char.ofNat 0x5C, 'f']
  else if r.toNat = 0x0A then [Char.ofNat 0x5C, 'n']
  else if r.toNat = 0x0D then [Char.ofNat 0x5C, 'r']
  else if r.toNat = 0x09 then [Char.ofNat 0x5C, 't']
  else if r.toNat = 0x0B then [Char.ofNat 0x5C, 'v']
  else if r.toNat < 0x20 ∨ r.toNat = 0x7F then [Char.ofNat 0x5C, 'x'] ++ hexDigits 2 r.toNat
  else if r.toNat < 0x10000 then [Char.ofNat 0x5C, 'u'] ++ hexDigits 4 r.toNat
  else [Char.ofNat 0x5C, 'U'] ++ hexDigits 8 r.toNat

/-- Go's `strconv.Quote`, which is what the verb `%q` applies to a string. -/
def Quote (L : Lib) (s : String) : String :=
  String.mk ([Char.ofNat 0x22] ++ (s.data.map (appendEscapedRune L)).flatten ++ [Char.ofNat 0x22])

/-! ## `command.go` -/

/-- The type of `Command.MessageHandler`: sender, invoked name and arguments to a reply. -/
abbrev Handler := String → String → List String → Option Message

/-- A Matrix command (`Command`). -/
structure Command where
  Summary : String
  Description : String
  MessageHandler : Option Handler
  Subcommands : List (String × Command)

instance : Inhabited Command := ⟨⟨"", "", none, []⟩⟩

namespace Command

/-- The last two statements of `Execute`: without a handler the invalid-command reply,
otherwise the handler's reply. -/
def executeSelf (L : Lib) (c : Command) (sender cmd : String) (args : List String) :
    Option Message :=
  match c.MessageHandler with
  | none => some (NewMarkdownMessage L ("invalid command: " ++ Quote L cmd))
  | some h => h sender cmd args

/-- Source `Command.Execute`: descend into the subcommand named by the first argument when it has a
handler, otherwise run this command. -/
def Execute (L : Lib) (c : Command) (sender cmd : String) (args : List String) :
    Option Message :=
  match args with
  | [] => c.executeSelf L sender cmd []
  | a :: rest =>
    match c.Subcommands.lookup a with
    | some subCmd =>
      if subCmd.MessageHandler.isSome then subCmd.Execute L sender a rest
      else c.executeSelf L sender cmd (a :: rest)
    | none => c.executeSelf L sender cmd (a :: rest)

/-- Source `Command.GetCommand`: descend into the subcommand named by the first argument while there
is one. The invoked name is ignored. -/
def GetCommand (c : Command) (_ : String) (args : List String) : Command :=
  match args with
  | [] => c
  | a :: rest =>
    match c.Subcommands.lookup a with
    | some sub => sub.GetCommand a rest
    | none => c

/-- Source `Command.Help`: the description if there is one, else the summary. -/
def Help (c : Command) : String :=
  if c.Description ≠ "" then c.Description else c.Summary

end Command

/-- An assignment `m[k] = v` to a Go map with string values, kept as an association list: an
existing key keeps its place and gets the new value, a new key goes to the end. -/
def mapSet (m : List (String × String)) (k v : String) : List (String × String) :=
  match m with
  | [] => [(k, v)]
  | (k0, v0) :: rest => if k0 = k then (k, v) :: rest else (k0, v0) :: mapSet rest k v

/-- A read `m[k]` of a Go map with string values: the zero value `""` for an absent key. -/
def mapGet (m : List (String × String)) (k : String) : String :=
  (m.lookup k).getD ""

/-- Go's `sort.Strings`: ascending in Go's string order, which compares bytes; on valid UTF-8 that
is the order of the code points. -/
def sortStrings (l : List String) : List String :=
  l.insertionSort (fun a b => a.data ≤ b.data)

namespace Command

/-- Source `Command.helpSummary`: the summaries of a command and of all commands below it, keyed by
`""` for the command itself and by `sub + " " + k` for the key `k` of subcommand `sub`. -/
def helpSummary : Command → List (String × String)
  | ⟨summary, _, _, subs⟩ => helpSummary.range subs [("", summary)]
where
  /-- The loop `for sub, command := range c.Subcommands` of `helpSummary`, on the map built so
  far. -/
  range : List (String × Command) → List (String × String) → List (String × String)
  | [], help => help
  | (sub, command) :: rest, help =>
    range rest
      ((helpSummary command).foldl (fun help kv => mapSet help (sub ++ " " ++ kv.1) kv.2) help)

/-- The two nested loops of `subcommandHelp`: the labels in the order they are appended and
the map from label to summary. -/
def subcommandLabels (c : Command) : List String × List (String × String) :=
  c.Subcommands.foldl
    (fun acc nc =>
      (helpSummary nc.2).foldl
        (fun acc kv =>
          let label := if kv.1 ≠ "" then nc.1 ++ " " ++ kv.1 else nc.1
          (acc.1 ++ [label], mapSet acc.2 label kv.2))
        acc)
    ([], [])

/-- Source `Command.subcommandHelp`: one line per label, in sorted order of the labels. -/
def subcommandHelp (c : Command) : List String :=
  (sortStrings c.subcommandLabels.1).map
    (fun n => "- `" ++ n ++ "`: " ++ mapGet c.subcommandLabels.2 n)

/-- Source `Command.HelpMessage`: the command's own help, an empty line, and the listing of its
subcommands, joined by newlines. -/
def HelpMessage (L : Lib) (c : Command) : Message :=
  let commands : List String := if c.Help ≠ "" then [c.Help] else []
  let commands : List String :=
    if c.Subcommands.length > 0 then
      (if commands.length > 0 then commands ++ [""] else commands) ++ c.subcommandHelp
    else commands
  NewMarkdownMessage L (String.intercalate "\n" commands)

/-- Source `Command.helpHandler`: the help message of the command the arguments resolve to. -/
def helpHandler (L : Lib) (c : Command) (_ cmd : String) (args : List String) :
    Option Message :=
  some ((c.GetCommand cmd args).HelpMessage L)

/-- Source `Command.HelpCommand`: the help command for a command. -/
def HelpCommand (L : Lib) (c : Command) : Command :=
  { Summary := "Shows help for a command."
    Description := "This command provides help for commands: use `help <command>`"
    MessageHandler := some (c.helpHandler L)
    Subcommands := [] }

end Command

/-! ## `client.go` and `help.go` -/

/-- The tunable configuration of a client (`ClientConfig`). -/
structure ClientConfig where
  MessageType : String
  CommandPrefixes : List String
  IgnoreHighlights : Bool
  Commands : List (String × Command)
  AllowedRooms : List String

/-- The calls of `SendMessageEvent` made so far, oldest first: room ID, event type and
content of each. -/
abbrev Outbox := List (String × String × Message)

/-- A Go `error`, kept as its message. -/
abbrev GoError := String

/-- The bot's client (`Client`). Of the wrapped `matrix.Client` it keeps what the bot uses:
the own user ID (`c.Client.UserID`), the answer of `GetOwnDisplayName` (the display name or an
error) and the answer of `SendMessageEvent` (the event ID or an error), which may depend on
what was sent before. -/
structure Client where
  UserID : String
  GetOwnDisplayName : Except GoError String
  SendMessageEvent : Outbox → String → String → Message → Except GoError String
  Config : ClientConfig

/-- Source `unknownCommandHandler`: names the first argument if there is one, else the invoked
name. -/
def unknownCommandHandler (L : Lib) : Handler := fun _ cmd args =>
  let cmd := match args with
    | a :: _ => a
    | [] => cmd
  some (NewMarkdownMessage L ("unknown command: " ++ Quote L cmd))

namespace Client

/-- Source `Client.rootCommand`: the registered commands under the unknown-command handler. -/
def rootCommand (L : Lib) (c : Client) : Command :=
  { Summary := ""
    Description := ""
    MessageHandler := some (unknownCommandHandler L)
    Subcommands := c.Config.Commands }

/-- Source `Client.helpHandler`: help resolved from the root command. -/
def helpHandler (L : Lib) (c : Client) (sender cmd : String) (args : List String) :
    Option Message :=
  (c.rootCommand L).helpHandler L sender cmd args

/-- Source `Client.helpCommand`: the default help command. -/
def helpCommand (L : Lib) (c : Client) : Command :=
  { Summary := "Shows help for a command."
    Description := "This command provides help for commands: use `help <command>`"
    MessageHandler := some (c.helpHandler L)
    Subcommands := [] }

end Client

/-! ## Functions of Go's `strings` and `unicode` that routing calls -/

/-- Go's `strings.HasPrefix`. -/
def HasPrefix (s p : String) : Bool := p.data.isPrefixOf s.data

/-- Go's `strings.TrimPrefix`: `s` without the leading `p` if it has one, else `s`. -/
def TrimPrefix (s p : String) : String :=
  if HasPrefix s p then String.mk (s.data.drop p.data.length) else s

/-- Go's `unicode.IsSpace`: decided directly up to U+00FF, by the Unicode table above. -/
def IsSpace (L : Lib) (r : Char) : Bool :=
  if r.toNat ≤ 0xFF then
    r.toNat = 0x09 ∨ r.toNat = 0x0A ∨ r.toNat = 0x0B ∨ r.toNat = 0x0C ∨ r.toNat = 0x0D ∨
      r.toNat = 0x20 ∨ r.toNat = 0x85 ∨ r.toNat = 0xA0
  else L.isSpaceTable r

/-- Go's `strings.TrimSpace`: `s` without its leading and trailing white space. -/
def TrimSpace (L : Lib) (s : String) : String :=
  String.mk ((s.data.dropWhile (IsSpace L)).rdropWhile (IsSpace L))

/-- Go's `strings.Split(s, " ")` on the runes of `s`: the pieces between the spaces, one more
than there are spaces. -/
def splitOnSpace : List Char → List (List Char)
  | [] => [[]]
  | r :: rest =>
    if r.toNat = 0x20 then [] :: splitOnSpace rest
    else
      match splitOnSpace rest with
      | piece :: pieces => (r :: piece) :: pieces
      | [] => [[r]]

/-- Go's `strings.Split(s, " ")`. -/
def SplitSpace (s : String) : List String :=
  (splitOnSpace s.data).map String.mk

/-! ## `event.go` and `room.go` -/

/-- A Matrix event (`Event`), of which the bot reads the sender, the room and, through
`Body()`, the textual body if there is one. -/
structure Event where
  Sender : String
  RoomID : String
  Body : Option String

/-- A Matrix room (`Room`). -/
structure Room where
  client : Client
  ID : String

/-- Modelled from the spec: the helper `contains` of package `bot`, which `Room.Allowed`
calls and whose file is not among the sources. By the spec `Allowed()` is "true iff
allow-list is empty or contains the destination ID" and "returns false for any destination not
literally present in a non-empty allow-list": `contains` tells whether some element of the
list equals the string. -/
def contains (list : List String) (s : String) : Bool :=
  list.any (fun x => x == s)

namespace Room

/-- Source `Room.Allowed`: every room is allowed when the allow-list is empty, otherwise the
rooms the list contains. -/
def Allowed (r : Room) : Bool :=
  if r.client.Config.AllowedRooms.length = 0 then true
  else contains r.client.Config.AllowedRooms r.ID

/-- The content `Room.SendMessage` hands to the transport: an empty message type is replaced
by the configured one. -/
def outgoing (r : Room) (message : Message) : Message :=
  if message.MsgType = "" then { message with MsgType := r.client.Config.MessageType }
  else message

/-- Source `Room.SendMessage`: sets the message type if it is empty, calls
`SendMessageEvent` and returns the event ID, or the error with a prefix. The first component
is the outbox after the call. -/
def SendMessage (r : Room) (out : Outbox) (message : Message) :
    Outbox × Except GoError String :=
  let message := r.outgoing message
  match r.client.SendMessageEvent out r.ID "m.room.message" message with
  | Except.error err =>
    (out ++ [(r.ID, "m.room.message", message)],
      Except.error ("error sending message: " ++ err))
  | Except.ok eventID => (out ++ [(r.ID, "m.room.message", message)], Except.ok eventID)

/-- Source `Room.SendMarkdown`. -/
def SendMarkdown (L : Lib) (r : Room) (out : Outbox) (markdown : String) :
    Outbox × Except GoError String :=
  r.SendMessage out (NewMarkdownMessage L markdown)

/-- Source `Room.SendText`. -/
def SendText (r : Room) (out : Outbox) (plain : String) : Outbox × Except GoError String :=
  r.SendMessage out (NewTextMessage plain)

/-- Source `Room.SendHTML`. -/
def SendHTML (r : Room) (out : Outbox) (plain html : String) :
    Outbox × Except GoError String :=
  r.SendMessage out (NewHTMLMessage plain html)

end Room

/-! ## `client.go`: routing of inbound events -/

namespace Client

/-- Source `Client.NewRoom`. -/
def NewRoom (c : Client) (roomID : String) : Room :=
  { client := c, ID := roomID }

/-- Source `Client.handleTextMessage`: the trimmed text, split on spaces, is executed by the
root command under the invoked name `""`. -/
def handleTextMessage (L : Lib) (c : Client) (sender text : String) : Option Message :=
  (c.rootCommand L).Execute L sender "" (SplitSpace (TrimSpace L text))

/-- The loop `for _, prefix := range c.Config.CommandPrefixes` of `handleCommand`. -/
def handlePrefixes (L : Lib) (c : Client) (sender text : String) :
    List String → Option Message
  | [] => none
  | p :: rest =>
    if HasPrefix text p then c.handleTextMessage L sender (TrimPrefix text p)
    else handlePrefixes L c sender text rest

/-- The part of `handleCommand` under `if !c.Config.IgnoreHighlights`: the reply when the text
starts with the user ID or the display name followed by `": "`, `none` when it falls
through to the prefixes. -/
def handleHighlight (L : Lib) (c : Client) (sender text : String) : Option (Option Message) :=
  if HasPrefix text (c.UserID ++ ": ") then
    some (c.handleTextMessage L sender (TrimPrefix text (c.UserID ++ ": ")))
  else
    match c.GetOwnDisplayName with
    | Except.ok displayName =>
      if HasPrefix text (displayName ++ ": ") then
        some (c.handleTextMessage L sender (TrimPrefix text (displayName ++ ": ")))
      else none
    | Except.error _ => none

/-- Source `Client.handleCommand`: no reply to events without body or sent by the bot; else
the highlight rule unless highlights are ignored, then the prefixes in order, else no
reply. -/
def handleCommand (L : Lib) (c : Client) (e : Event) : Option Message :=
  match e.Body with
  | none => none
  | some text =>
    if e.Sender = c.UserID then none
    else
      match (if !c.Config.IgnoreHighlights then c.handleHighlight L e.Sender text else none) with
      | some reply => reply
      | none => c.handlePrefixes L e.Sender text c.Config.CommandPrefixes

/-- Source `Client.handleMessage`: events of rooms that are not allowed are dropped; the
reply of `handleCommand`, if there is one, is sent to the room of the event, the result of
sending being ignored. The result is the outbox afterwards. -/
def handleMessage (L : Lib) (c : Client) (out : Outbox) (e : Event) : Outbox :=
  if !(c.NewRoom e.RoomID).Allowed then out
  else
    match c.handleCommand L e with
    | some response => ((c.NewRoom e.RoomID).SendMessage out response).1
    | none => out

end Client

/-! ## The same routing with its calls recorded

A handler is a function value that the bot calls, `GetOwnDisplayName` and `SendMessageEvent`
are requests to the homeserver. The functions below follow `Execute`, `handleCommand` and
`handleMessage` statement by statement and return, next to the result, the calls made, in
order. -/

/-- A call that leaves the bot's own code. -/
inductive Effect where
  /-- A call of `c.Client.GetOwnDisplayName()`. -/
  | displayNameRequested
  /-- A call of a `MessageHandler` with the sender, the invoked name and the arguments. -/
  | handlerCalled (sender cmd : String) (args : List String)
  /-- A call of `SendMessageEvent` with the room ID, the event type and the content. -/
  | messageSent (roomID eventType : String) (content : Message)
deriving DecidableEq, Repr

/-- The call of `SendMessageEvent` that an effect records, if it records one. -/
def Effect.sent : Effect → Option (String × String × Message)
  | Effect.messageSent roomID eventType content => some (roomID, eventType, content)
  | _ => none

namespace Command

/-- The last two statements of `Execute`, with the call of the handler recorded. -/
def executeSelfTraced (L : Lib) (c : Command) (sender cmd : String) (args : List String) :
    Option Message × List Effect :=
  match c.MessageHandler with
  | none => (some (NewMarkdownMessage L ("invalid command: " ++ Quote L cmd)), [])
  | some h => (h sender cmd args, [Effect.handlerCalled sender cmd args])

/-- Source `Command.Execute`, with the call of the handler recorded. -/
def ExecuteTraced (L : Lib) (c : Command) (sender cmd : String) (args : List String) :
    Option Message × List Effect :=
  match args with
  | [] => c.executeSelfTraced L sender cmd []
  | a :: rest =>
    match c.Subcommands.lookup a with
    | some subCmd =>
      if subCmd.MessageHandler.isSome then subCmd.ExecuteTraced L sender a rest
      else c.executeSelfTraced L sender cmd (a :: rest)
    | none => c.executeSelfTraced L sender cmd (a :: rest)

end Command

namespace Client

/-- Source `Client.handleTextMessage`, with the call of the handler recorded. -/
def handleTextMessageTraced (L : Lib) (c : Client) (sender text : String) :
    Option Message × List Effect :=
  (c.rootCommand L).ExecuteTraced L sender "" (SplitSpace (TrimSpace L text))

/-- The loop over `c.Config.CommandPrefixes` of `handleCommand`, with the calls recorded. -/
def handlePrefixesTraced (L : Lib) (c : Client) (sender text : String) :
    List String → Option Message × List Effect
  | [] => (none, [])
  | p :: rest =>
    if HasPrefix text p then c.handleTextMessageTraced L sender (TrimPrefix text p)
    else handlePrefixesTraced L c sender text rest

/-- The part of `handleCommand` under `if !c.Config.IgnoreHighlights`, with the calls
recorded: the display name is requested when the text does not start with the user ID. -/
def handleHighlightTraced (L : Lib) (c : Client) (sender text : String) :
    Option (Option Message) × List Effect :=
  if HasPrefix text (c.UserID ++ ": ") then
    let reply := c.handleTextMessageTraced L sender (TrimPrefix text (c.UserID ++ ": "))
    (some reply.1, reply.2)
  else
    match c.GetOwnDisplayName with
    | Except.ok displayName =>
      if HasPrefix text (displayName ++ ": ") then
        let reply := c.handleTextMessageTraced L sender (TrimPrefix text (displayName ++ ": "))
        (some reply.1, Effect.displayNameRequested :: reply.2)
      else (none, [Effect.displayNameRequested])
    | Except.error _ => (none, [Effect.displayNameRequested])

/-- Source `Client.handleCommand`, with the calls recorded. -/
def handleCommandTraced (L : Lib) (c : Client) (e : Event) : Option Message × List Effect :=
  match e.Body with
  | none => (none, [])
  | some text =>
    if e.Sender = c.UserID then (none, [])
    else
      let highlight : Option (Option Message) × List Effect :=
        if !c.Config.IgnoreHighlights then c.handleHighlightTraced L e.Sender text
        else (none, [])
      match highlight.1 with
      | some reply => (reply, highlight.2)
      | none =>
        let routed := c.handlePrefixesTraced L e.Sender text c.Config.CommandPrefixes
        (routed.1, highlight.2 ++ routed.2)

/-- Source `Client.handleMessage`, with the calls recorded: the outbox afterwards and the
calls made while the event was handled. -/
def handleMessageTraced (L : Lib) (c : Client) (out : Outbox) (e : Event) :
    Outbox × List Effect :=
  if !(c.NewRoom e.RoomID).Allowed then (out, [])
  else
    let routed := c.handleCommandTraced L e
    match routed.1 with
    | some response =>
      (((c.NewRoom e.RoomID).SendMessage out response).1,
        routed.2 ++
          [Effect.messageSent e.RoomID "m.room.message"
            ((c.NewRoom e.RoomID).outgoing response)])
    | none => (out, routed.2)

end Client

/-! ## Reading results -/

/-- Go's `strings.Contains(s, sub)`: `sub` occurs in `s` as a contiguous run. -/
def Contains (s sub : String) : Prop := sub.data <:+: s.data

instance (s sub : String) : Decidable (Contains s sub) :=
  inferInstanceAs (Decidable (sub.data <:+: s.data))

/-- A rune that `strconv.Quote` copies unchanged: printable, not `"` and not `\`. -/
def Unescaped (L : Lib) (r : Char) : Prop :=
  IsPrint L r = true ∧ r.toNat ≠ 0x22 ∧ r.toNat ≠ 0x5C

/-- Every handler of the tree under `c`, the one of `c` included, satisfies `P`. -/
def EveryHandler (P : Handler → Prop) : Command → Prop
  | ⟨_, _, handler, subs⟩ => (∀ h, handler = some h → P h) ∧ EveryHandler.children P subs
where
  /-- Every handler of the trees stored in a map of subcommands satisfies `P`. -/
  children (P : Handler → Prop) : List (String × Command) → Prop
  | [] => True
  | (_, command) :: rest => EveryHandler P command ∧ children P rest

/-- The node reached from `c` by looking up the names of `path` one after the other. -/
def Command.follow (c : Command) : List String → Option Command
  | [] => some c
  | n :: rest =>
    match c.Subcommands.lookup n with
    | some sub => sub.follow rest
    | none => none

/-- The key under which `helpSummary` files the node reached by a path of names: every name
followed by one space. -/
def summaryKey : List String → String
  | [] => ""
  | n :: rest => n ++ " " ++ summaryKey rest

/-- The label `subcommandHelp` forms for the node reached by a path of names: the first name
alone for a direct subcommand, otherwise the first name, a space and the key of the rest. -/
def pathLabel : List String → String
  | [] => ""
  | [n] => n
  | n :: rest => n ++ " " ++ summaryKey rest

/-- The commands below `c` at every depth, each with the path of names leading to it from
`c`, in the order in which the loops of `helpSummary` visit them. -/
def Command.descendants : Command → List (List String × Command)
  | ⟨_, _, _, subs⟩ => descendants.children subs
where
  /-- The commands stored in a map of subcommands and all commands below them. -/
  children : List (String × Command) → List (List String × Command)
  | [] => []
  | (n, command) :: rest =>
    ([n], command) :: (descendants command).map (fun p => (n :: p.1, p.2)) ++ children rest

/-- The line of the listing for a descendant: its label between backticks and its summary. -/
def helpLine (p : List String × Command) : String :=
  "- `" ++ pathLabel p.1 ++ "`: " ++ p.2.Summary

/-- The label `subcommandHelp` forms from the name of a subcommand and a key of its
`helpSummary`. -/
def labelOf (name k : String) : String :=
  if k ≠ "" then name ++ " " ++ k else name

/-- What `helpSummary` holds when no two keys coincide: the summary of the command under `""`
and the summary of every descendant under the key of its path. -/
def Command.summaryEntries (c : Command) : List (String × String) :=
  ("", c.Summary) :: c.descendants.map (fun p => (summaryKey p.1, p.2.Summary))

/-- The string holds no space. -/
def SpaceFree (s : String) : Prop := Char.ofNat 0x20 ∉ s.data

instance (s : String) : Decidable (SpaceFree s) :=
  inferInstanceAs (Decidable (Char.ofNat 0x20 ∉ s.data))

/-- The names under which `c` and every command below it store their subcommands hold no
space and, as the keys of a Go map, differ from one another. -/
def NamesOK (c : Command) : Prop :=
  ∀ p ∈ ([], c) :: c.descendants,
    (p.2.Subcommands.map Prod.fst).Nodup ∧ ∀ n ∈ p.2.Subcommands.map Prod.fst, SpaceFree n

instance (c : Command) : Decidable (NamesOK c) :=
  inferInstanceAs (Decidable (∀ p ∈ ([], c) :: c.descendants,
    (p.2.Subcommands.map Prod.fst).Nodup ∧ ∀ n ∈ p.2.Subcommands.map Prod.fst, SpaceFree n))

/-- The keys of the `helpSummary` of every subcommand, each combined with the name of the
subcommand by `f`, one subcommand after the other. -/
def blockList (f : String → String → String) : List (String × Command) → List String
  | [] => []
  | (n, c) :: rest => (c.summaryEntries.map Prod.fst).map (f n) ++ blockList f rest

/-- The labels of the listing of `subcommandHelp`, in the order of the listing. -/
def Command.listingLabels (c : Command) : List String :=
  sortStrings c.subcommandLabels.1

/-! ## Example trees -/

/-- A handler that reports what it was called with. -/
def echoHandler : Handler := fun sender cmd args =>
  some (NewTextMessage (sender ++ " ran " ++ cmd ++ " with " ++ String.intercalate "," args))

/-- The command `ping`, answering `pong`. -/
def pingCommand : Command :=
  { Summary := "Replies with pong."
    Description := ""
    MessageHandler := some (fun _ _ _ => some (NewTextMessage "pong"))
    Subcommands := [] }

/-- The command `ban` with the reporting handler and no subcommands. -/
def banCommand : Command :=
  { Summary := "Bans a user."
    Description := "Bans the given user from the room."
    MessageHandler := some echoHandler
    Subcommands := [] }

/-- The grouping command `admin` of scenario 3: no handler of its own, `ban` below it. -/
def adminGroup : Command :=
  { Summary := "Administration."
    Description := ""
    MessageHandler := none
    Subcommands := [("ban", banCommand)] }

/-- The command `admin` with a handler of its own and `ban` below it. -/
def adminCommand : Command :=
  { Summary := "Administration."
    Description := ""
    MessageHandler := some (fun _ _ _ => some (NewTextMessage "admin"))
    Subcommands := [("ban", banCommand)] }

/-- A client with the given registered commands. -/
def clientWith (commands : List (String × Command)) : Client :=
  { UserID := "@bot:example.org"
    GetOwnDisplayName := Except.ok "bot"
    SendMessageEvent := fun _ _ _ _ => Except.ok "$event"
    Config :=
      { MessageType := "m.notice"
        CommandPrefixes := ["!"]
        IgnoreHighlights := false
        Commands := commands
        AllowedRooms := [] } }

/-- A command with the reporting handler and the grouping command `admin` below it. -/
def echoOverGroup : Command :=
  { Summary := "Top."
    Description := ""
    MessageHandler := some echoHandler
    Subcommands := [("admin", adminGroup)] }

/-- The root command of scenarios 1 and 2: `help` and `ping` are registered. The `help`
registered here answers for a client holding `ping` alone. -/
def scenarioRoot (L : Lib) : Command :=
  (clientWith
    [("help", (clientWith [("ping", pingCommand)]).helpCommand L),
     ("ping", pingCommand)]).rootCommand L

/-- A command with the reporting handler, the given summary and the given subcommands. -/
def echoNode (summary : String) (subs : List (String × Command)) : Command :=
  { Summary := summary
    Description := ""
    MessageHandler := some echoHandler
    Subcommands := subs }

/-- A tree all of whose commands have a handler and in which one name holds a space: below
`a` lie `b c` and `b`, and below `b` lies `c`. -/
def spacedTree : Command :=
  echoNode "Top."
    [("a", echoNode "A."
      [("b c", echoNode "One name." []),
       ("b", echoNode "B." [("c", echoNode "Two names." [])])])]

/-- A client with `ping` registered whose allow-list holds the room `!roomA` only and whose
transport answers every send with `answer`. -/
def gatedClient (answer : Except GoError String) : Client :=
  { UserID := "@bot:example.org"
    GetOwnDisplayName := Except.ok "bot"
    SendMessageEvent := fun _ _ _ _ => answer
    Config :=
      { MessageType := "m.notice"
        CommandPrefixes := ["!"]
        IgnoreHighlights := false
        Commands := [("ping", pingCommand)]
        AllowedRooms := ["!roomA"] } }

/-- A tree in which one name holds a space: `c` lies below `a b`, and also below `b`, which
lies below `a`. -/
def clashTree : Command :=
  echoNode "Top."
    [("a b", echoNode "One name." [("c", echoNode "Below a b." [])]),
     ("a", echoNode "A." [("b", echoNode "B." [("c", echoNode "Below a, b." [])])])]

/-! ## Lemmas on quoting -/

theorem appendEscapedRune_of_unescaped (L : Lib) (r : Char) (h : Unescaped L r) :
    appendEscapedRune L r = [r] := by
  obtain ⟨hp, hq, hb⟩ := h
  simp [appendEscapedRune, hp, hq, hb]

theorem flatten_escaped_of_unescaped (L : Lib) (l : List Char) (h : ∀ r ∈ l, Unescaped L r) :
    (l.map (appendEscapedRune L)).flatten = l := by
  induction l with
  | nil => rfl
  | cons r rest ih =>
    have hr := appendEscapedRune_of_unescaped L r (h r (List.mem_cons_self r rest))
    have hrest := ih (fun x hx => h x (List.mem_cons_of_mem r hx))
    simp [List.flatten, hr, hrest]

theorem Quote_of_unescaped (L : Lib) (s : String) (h : ∀ r ∈ s.data, Unescaped L r) :
    (Quote L s).data = [Char.ofNat 0x22] ++ s.data ++ [Char.ofNat 0x22] := by
  simp [Quote, flatten_escaped_of_unescaped L s.data h]

/-! ## Lemmas on execution -/

theorem Execute_nil (L : Lib) (c : Command) (sender cmd : String) :
    c.Execute L sender cmd [] = c.executeSelf L sender cmd [] := by
  simp [Command.Execute]

theorem Execute_cons_some (L : Lib) (c child : Command) (sender cmd a : String)
    (rest : List String) (hkey : c.Subcommands.lookup a = some child) :
    c.Execute L sender cmd (a :: rest) =
      if child.MessageHandler.isSome then child.Execute L sender a rest
      else c.executeSelf L sender cmd (a :: rest) := by
  rw [Command.Execute]; simp [hkey]

theorem Execute_cons_none (L : Lib) (c : Command) (sender cmd a : String)
    (rest : List String) (hkey : c.Subcommands.lookup a = none) :
    c.Execute L sender cmd (a :: rest) = c.executeSelf L sender cmd (a :: rest) := by
  rw [Command.Execute]; simp [hkey]

theorem EveryHandler_children_lookup (P : Handler → Prop) (subs : List (String × Command))
    (a : String) (child : Command) (h : EveryHandler.children P subs)
    (hkey : subs.lookup a = some child) : EveryHandler P child := by
  induction subs with
  | nil => simp at hkey
  | cons p rest ih =>
    obtain ⟨n, command⟩ := p
    rw [EveryHandler.children] at h
    by_cases hn : a = n
    · subst hn
      simp [List.lookup] at hkey
      subst hkey
      exact h.1
    · have : (a == n) = false := by simpa using hn
      simp [List.lookup, this] at hkey
      exact ih h.2 hkey

theorem EveryHandler_lookup (P : Handler → Prop) (c child : Command) (a : String)
    (h : EveryHandler P c) (hkey : c.Subcommands.lookup a = some child) :
    EveryHandler P child := by
  obtain ⟨s, d, handler, subs⟩ := c
  rw [EveryHandler] at h
  exact EveryHandler_children_lookup P subs a child h.2 hkey

theorem EveryHandler_self (P : Handler → Prop) (c : Command) (h : EveryHandler P c)
    (f : Handler) (hf : c.MessageHandler = some f) : P f := by
  obtain ⟨s, d, handler, subs⟩ := c
  rw [EveryHandler] at h
  exact h.1 f hf

theorem executeSelf_isSome (L : Lib) (c : Command) (sender cmd : String) (args : List String)
    (h : ∀ f, c.MessageHandler = some f → ∀ s n a, (f s n a).isSome = true) :
    (c.executeSelf L sender cmd args).isSome = true := by
  unfold Command.executeSelf
  cases hc : c.MessageHandler with
  | none => simp
  | some f => simpa using h f hc sender cmd args
theorem GetCommand_of_follow (root N : Command) (cmd : String) (path : List String)
    (hpath : root.follow path = some N) : root.GetCommand cmd path = N := by
  induction path generalizing root cmd with
  | nil =>
    simp [Command.follow] at hpath
    simp [Command.GetCommand, hpath]
  | cons n rest ih =>
    rw [Command.follow] at hpath
    rw [Command.GetCommand]
    cases hl : root.Subcommands.lookup n with
    | none => simp [hl] at hpath
    | some sub =>
      simp only [hl] at hpath ⊢
      exact ih sub n hpath

theorem HelpMessage_leaf_Body (L : Lib) (N : Command) (hleaf : N.Subcommands = []) :
    (N.HelpMessage L).Body = N.Help := by
  by_cases h : N.Help = ""
  · simp [Command.HelpMessage, hleaf, h, NewMarkdownMessage, NewHTMLMessage, String.intercalate]
  · simp [Command.HelpMessage, hleaf, h, NewMarkdownMessage, NewHTMLMessage, String.intercalate,
      String.intercalate.go]

/-- C1: when the first argument is a key of `Subcommands` and the child stored there has a
handler, `Execute` returns what the child's `Execute` returns for that key as invoked name and
the remaining arguments. -/
theorem Execute_descends_into_child (L : Lib) (c child : Command) (sender cmd a : String)
    (rest : List String) (hkey : c.Subcommands.lookup a = some child)
    (hh : child.MessageHandler ≠ none) :
    c.Execute L sender cmd (a :: rest) = child.Execute L sender a rest := by
  rw [Execute_cons_some L c child sender cmd a rest hkey]
  cases hm : child.MessageHandler with
  | none => exact absurd hm hh
  | some f => simp

/-- Scenario 1: in the tree with `help` and `ping`, the tokens `ping` are answered by the
handler of `ping`, with body `pong`. -/
theorem Execute_descends_into_child_witness :
    pingCommand.MessageHandler ≠ none ∧
    ∀ L : Lib,
      (scenarioRoot L).Subcommands.lookup "ping" = some pingCommand ∧
      (scenarioRoot L).Execute L "@alice:example.org" "" ["ping"] =
        pingCommand.Execute L "@alice:example.org" "ping" [] ∧
      (scenarioRoot L).Execute L "@alice:example.org" "" ["ping"] =
        some (NewTextMessage "pong") :=
  ⟨by simp [pingCommand], fun L =>
    ⟨rfl,
     Execute_descends_into_child L (scenarioRoot L) pingCommand "@alice:example.org" "" "ping"
       [] rfl (by simp [pingCommand]),
     rfl⟩⟩

/-- C2 (as amended): over registered commands in which `admin` has a handler of its own and
holds `ban` with handler `h` and no subcommands, the root command executes the tokens
`admin ban userX` by calling `h` with invoked name `ban` and the arguments `userX`. -/
theorem root_dispatches_nested_command (L : Lib) (cl : Client) (admin ban : Command)
    (g h : Handler) (sender : String)
    (hadmin : cl.Config.Commands.lookup "admin" = some admin)
    (hg : admin.MessageHandler = some g)
    (hban : admin.Subcommands.lookup "ban" = some ban)
    (hh : ban.MessageHandler = some h)
    (hleaf : ban.Subcommands = []) :
    (cl.rootCommand L).Execute L sender "" ["admin", "ban", "userX"] =
      h sender "ban" ["userX"] := by
  have hroot : (cl.rootCommand L).Subcommands.lookup "admin" = some admin := hadmin
  rw [Execute_cons_some L _ admin sender "" "admin" _ hroot]
  rw [Execute_cons_some L admin ban sender "admin" "ban" _ hban]
  have hnone : ban.Subcommands.lookup "userX" = none := by simp [hleaf]
  rw [Execute_cons_none L ban sender "ban" "userX" [] hnone]
  simp [hg, hh, Command.executeSelf]

/-- With `admin` carrying a handler, `admin ban userX` reaches the handler of `ban`. -/
theorem root_dispatches_nested_command_witness :
    (adminCommand.MessageHandler = some (fun _ _ _ => some (NewTextMessage "admin")) ∧
      adminCommand.Subcommands.lookup "ban" = some banCommand ∧
      banCommand.MessageHandler = some echoHandler ∧ banCommand.Subcommands = []) ∧
    ∀ L : Lib,
      ((clientWith [("admin", adminCommand)]).rootCommand L).Execute L "@alice:example.org" ""
          ["admin", "ban", "userX"] =
        echoHandler "@alice:example.org" "ban" ["userX"] :=
  ⟨⟨rfl, rfl, rfl, rfl⟩, fun L =>
    root_dispatches_nested_command L (clientWith [("admin", adminCommand)]) adminCommand
      banCommand (fun _ _ _ => some (NewTextMessage "admin")) echoHandler
      "@alice:example.org" rfl rfl rfl rfl rfl⟩

/-- C2 fails as stated: with `admin` a node without handler holding `ban`, the root command
does not descend into `admin`; the tokens `admin ban userX` are answered by
`unknownCommandHandler` with `unknown command: "admin"`, which is not what the handler of
`ban` returns for `userX`. -/
theorem root_skips_group_without_handler :
    adminGroup.MessageHandler = none ∧
    adminGroup.Subcommands.lookup "ban" = some banCommand ∧
    banCommand.MessageHandler = some echoHandler ∧
    (∀ L : Lib,
      ((clientWith [("admin", adminGroup)]).rootCommand L).Execute L "@alice:example.org" ""
          ["admin", "ban", "userX"] =
        some (NewMarkdownMessage L "unknown command: \"admin\"")) ∧
    ¬ ∃ L : Lib,
      ((clientWith [("admin", adminGroup)]).rootCommand L).Execute L "@alice:example.org" ""
          ["admin", "ban", "userX"] =
        echoHandler "@alice:example.org" "ban" ["userX"] := by
  refine ⟨rfl, rfl, rfl, fun L => rfl, ?_⟩
  rintro ⟨L, h⟩
  have h2 : some (NewMarkdownMessage L "unknown command: \"admin\"") =
      echoHandler "@alice:example.org" "ban" ["userX"] := h
  simp [echoHandler, NewMarkdownMessage, NewHTMLMessage, NewTextMessage] at h2

/-- C3 fails on the code: below a command with a handler, a subcommand without handler is
what `GetCommand` returns for its name, while `Execute` for the same arguments runs the
handler of the command itself, with the full arguments, and never the subcommand. -/
theorem GetCommand_differs_from_Execute :
    echoOverGroup.GetCommand "top" ["admin"] = adminGroup ∧
    adminGroup.MessageHandler = none ∧
    (∀ L : Lib,
      echoOverGroup.Execute L "@alice:example.org" "top" ["admin"] =
        echoHandler "@alice:example.org" "top" ["admin"]) ∧
    ∀ (L : Lib) (name : String) (args : List String),
      echoOverGroup.Execute L "@alice:example.org" "top" ["admin"] ≠
        (echoOverGroup.GetCommand "top" ["admin"]).executeSelf L "@alice:example.org" name
          args := by
  refine ⟨rfl, rfl, fun L => rfl, fun L name args h => ?_⟩
  have h2 : echoHandler "@alice:example.org" "top" ["admin"] =
      adminGroup.executeSelf L "@alice:example.org" name args := h
  simp [echoHandler, adminGroup, Command.executeSelf, NewMarkdownMessage, NewHTMLMessage,
    NewTextMessage] at h2

/-- C4: when the command has a handler `h` and the first argument is a key of `Subcommands`
whose child has no handler, `Execute` stays at the command and returns `h` applied to the
invoked name and all the arguments. -/
theorem Execute_skips_child_without_handler (L : Lib) (c child : Command) (h : Handler)
    (sender cmd a : String) (rest : List String)
    (hc : c.MessageHandler = some h)
    (hkey : c.Subcommands.lookup a = some child)
    (hnil : child.MessageHandler = none) :
    c.Execute L sender cmd (a :: rest) = h sender cmd (a :: rest) := by
  rw [Execute_cons_some L c child sender cmd a rest hkey]
  simp [hnil, hc, Command.executeSelf]

/-- Below a command with the reporting handler, the tokens `admin ban userX` stay at the
command although `admin` is a key and `ban` lies below it. -/
theorem Execute_skips_child_without_handler_witness :
    (echoOverGroup.MessageHandler = some echoHandler ∧
      echoOverGroup.Subcommands.lookup "admin" = some adminGroup ∧
      adminGroup.MessageHandler = none) ∧
    ∀ L : Lib,
      echoOverGroup.Execute L "@alice:example.org" "top" ["admin", "ban", "userX"] =
        echoHandler "@alice:example.org" "top" ["admin", "ban", "userX"] :=
  ⟨⟨rfl, rfl, rfl⟩, fun L =>
    Execute_skips_child_without_handler L echoOverGroup adminGroup echoHandler
      "@alice:example.org" "top" "admin" ["ban", "userX"] rfl rfl rfl⟩

theorem Execute_without_dispatch (L : Lib) (c : Command) (sender cmd : String)
    (args : List String)
    (hnil : c.MessageHandler = none)
    (hsel : args = [] ∨ ∃ a, args.head? = some a ∧
      (c.Subcommands.lookup a = none ∨
        ∃ child, c.Subcommands.lookup a = some child ∧ child.MessageHandler = none)) :
    c.Execute L sender cmd args =
      some (NewMarkdownMessage L ("invalid command: " ++ Quote L cmd)) := by
  rcases hsel with hempty | ⟨a, ha, hcase⟩
  · subst hempty
    simp [Execute_nil, Command.executeSelf, hnil]
  · cases args with
    | nil => simp at ha
    | cons b rest =>
      simp at ha
      subst ha
      rcases hcase with hnone | ⟨child, hsome, hchild⟩
      · rw [Execute_cons_none L c sender cmd b rest hnone]
        simp [Command.executeSelf, hnil]
      · rw [Execute_cons_some L c child sender cmd b rest hsome]
        simp [Command.executeSelf, hnil, hchild]

/-- C5: a command without handler, executed with arguments that select no subcommand with
a handler, returns the Markdown message whose body is `invalid command: ` followed by the
invoked name as `%q` writes it; its format is the HTML tag. -/
theorem Execute_invalid_command (L : Lib) (c : Command) (sender cmd : String)
    (args : List String)
    (hnil : c.MessageHandler = none)
    (hsel : args = [] ∨ ∃ a, args.head? = some a ∧
      (c.Subcommands.lookup a = none ∨
        ∃ child, c.Subcommands.lookup a = some child ∧ child.MessageHandler = none)) :
    c.Execute L sender cmd args =
        some (NewMarkdownMessage L ("invalid command: " ++ Quote L cmd)) ∧
      (NewMarkdownMessage L ("invalid command: " ++ Quote L cmd)).Body =
        "invalid command: " ++ Quote L cmd ∧
      (NewMarkdownMessage L ("invalid command: " ++ Quote L cmd)).Format =
        "org.matrix.custom.html" :=
  ⟨Execute_without_dispatch L c sender cmd args hnil hsel, rfl, rfl⟩

/-- The grouping command `admin`, invoked as `admin` with the unregistered token `kick`,
answers `invalid command: "admin"`. -/
theorem Execute_invalid_command_witness :
    (adminGroup.MessageHandler = none ∧
      (["kick"] = ([] : List String) ∨ ∃ a, ["kick"].head? = some a ∧
        (adminGroup.Subcommands.lookup a = none ∨
          ∃ child, adminGroup.Subcommands.lookup a = some child ∧
            child.MessageHandler = none))) ∧
    ∀ L : Lib,
      adminGroup.Execute L "@alice:example.org" "admin" ["kick"] =
        some (NewMarkdownMessage L "invalid command: \"admin\"") :=
  ⟨⟨rfl, Or.inr ⟨"kick", rfl, Or.inl rfl⟩⟩, fun L =>
    (Execute_invalid_command L adminGroup "@alice:example.org" "admin" ["kick"] rfl
      (Or.inr ⟨"kick", rfl, Or.inl rfl⟩)).1⟩

theorem Contains_quoted (L : Lib) (pre name : String) (h : ∀ r ∈ name.data, Unescaped L r) :
    Contains (pre ++ Quote L name) name := by
  unfold Contains
  rw [String.data_append, Quote_of_unescaped L name h]
  exact ⟨pre.data ++ [Char.ofNat 0x22], [Char.ofNat 0x22], by simp⟩

/-- C6 (as amended): for a command without handler whose `Subcommands` do not hold the first
argument, the body of the reply is `invalid command: ` followed by the invoked name as `%q`
writes it; it contains the invoked name itself whenever every rune of the name is one that
`%q` copies unchanged (printable, neither `"` nor `\`). -/
theorem invalid_command_body_contains_name (L : Lib) (T : Command) (sender name : String)
    (args : List String)
    (hnil : T.MessageHandler = none)
    (hkey : ∀ a, args.head? = some a → T.Subcommands.lookup a = none) :
    ∃ m, T.Execute L sender name args = some m ∧
      m.Body = "invalid command: " ++ Quote L name ∧
      ((∀ r ∈ name.data, Unescaped L r) → Contains m.Body name) := by
  have hsel : args = [] ∨ ∃ a, args.head? = some a ∧
      (T.Subcommands.lookup a = none ∨
        ∃ child, T.Subcommands.lookup a = some child ∧ child.MessageHandler = none) := by
    cases args with
    | nil => exact Or.inl rfl
    | cons b rest => exact Or.inr ⟨b, rfl, Or.inl (hkey b rfl)⟩
  refine ⟨_, Execute_without_dispatch L T sender name args hnil hsel, rfl, ?_⟩
  intro hplain
  exact Contains_quoted L "invalid command: " name hplain

/-- The grouping command `admin`, invoked as `admin` with the unregistered token `kick`:
the body is `invalid command: "admin"`, which contains `admin`. -/
theorem invalid_command_body_contains_name_witness :
    (adminGroup.MessageHandler = none ∧
      ∀ a, ["kick"].head? = some a → adminGroup.Subcommands.lookup a = none) ∧
    ∀ L : Lib,
      (∀ r ∈ "admin".data, Unescaped L r) ∧
      ∃ m, adminGroup.Execute L "@alice:example.org" "admin" ["kick"] = some m ∧
        m.Body = "invalid command: \"admin\"" ∧
        Contains m.Body "admin" :=
  have hkey : ∀ a, ["kick"].head? = some a → adminGroup.Subcommands.lookup a = none := by
    intro a ha
    simp at ha
    subst ha
    rfl
  have hplain : ∀ L : Lib, ∀ r ∈ "admin".data, Unescaped L r := by
    intro L r hr
    simp at hr
    rcases hr with h | h | h | h | h <;> subst h <;> simp [Unescaped, IsPrint]
  ⟨⟨rfl, hkey⟩, fun L =>
    ⟨hplain L,
     (invalid_command_body_contains_name L adminGroup "@alice:example.org" "admin" ["kick"] rfl
       hkey).imp fun _ h => ⟨h.1, h.2.1, h.2.2 (hplain L)⟩⟩⟩

/-- C6 fails as stated: the grouping command `admin` has no handler and no subcommand `kick`;
invoked under a name holding a double quote, its reply has the body
`invalid command: "a\"b"`, in which the quote is escaped, so the body contains neither the
invoked name nor the first argument. -/
theorem invalid_command_body_escapes_name :
    adminGroup.MessageHandler = none ∧
    adminGroup.Subcommands.lookup "kick" = none ∧
    (∀ L : Lib,
      adminGroup.Execute L "@alice:example.org" "a\"b" ["kick"] =
        some (NewMarkdownMessage L "invalid command: \"a\\\"b\"")) ∧
    (∀ L : Lib, (NewMarkdownMessage L "invalid command: \"a\\\"b\"").Body =
      "invalid command: \"a\\\"b\"") ∧
    ¬ Contains "invalid command: \"a\\\"b\"" "a\"b" ∧
    ¬ Contains "invalid command: \"a\\\"b\"" "kick" :=
  ⟨rfl, rfl, fun _ => rfl, fun _ => rfl, by decide, by decide⟩

/-- C7 (as amended): when the first token is not a registered command name, the root command
answers with the Markdown message whose body is `unknown command: ` followed by that token as
`%q` writes it, which for a token of runes that `%q` copies unchanged is the token between two
double quotes; `unknownCommandHandler` names the first argument when there is one and the
invoked name otherwise. -/
theorem root_unknown_command (L : Lib) (cl : Client) (sender t : String) (rest : List String)
    (hkey : cl.Config.Commands.lookup t = none) :
    (cl.rootCommand L).Execute L sender "" (t :: rest) =
        some (NewMarkdownMessage L ("unknown command: " ++ Quote L t)) ∧
      (NewMarkdownMessage L ("unknown command: " ++ Quote L t)).Body =
        "unknown command: " ++ Quote L t ∧
      ((∀ r ∈ t.data, Unescaped L r) →
        (Quote L t).data = [Char.ofNat 0x22] ++ t.data ++ [Char.ofNat 0x22]) ∧
      (∀ (s cmd a : String) (more : List String),
        unknownCommandHandler L s cmd (a :: more) =
          some (NewMarkdownMessage L ("unknown command: " ++ Quote L a))) ∧
      ∀ s cmd : String,
        unknownCommandHandler L s cmd [] =
          some (NewMarkdownMessage L ("unknown command: " ++ Quote L cmd)) := by
  refine ⟨?_, rfl, Quote_of_unescaped L t, fun _ _ _ _ => rfl, fun _ _ => rfl⟩
  have hroot : (cl.rootCommand L).Subcommands.lookup t = none := hkey
  rw [Execute_cons_none L _ sender "" t rest hroot]
  rfl

/-- Scenario 2: with `ping` registered, and also with `help` and `ping` registered, the token
`bogus` is answered with `unknown command: "bogus"`. -/
theorem root_unknown_command_witness :
    (clientWith [("ping", pingCommand)]).Config.Commands.lookup "bogus" = none ∧
    (∀ L : Lib,
      ((clientWith [("ping", pingCommand)]).rootCommand L).Execute L "@alice:example.org" ""
          ["bogus"] =
        some (NewMarkdownMessage L "unknown command: \"bogus\"")) ∧
    (∀ L : Lib,
      (scenarioRoot L).Execute L "@alice:example.org" "" ["bogus"] =
        some (NewMarkdownMessage L "unknown command: \"bogus\"")) ∧
    ∀ L : Lib, (NewMarkdownMessage L "unknown command: \"bogus\"").Body =
      "unknown command: \"bogus\"" :=
  ⟨rfl,
   fun L =>
    (root_unknown_command L (clientWith [("ping", pingCommand)]) "@alice:example.org" "bogus"
      [] rfl).1,
   fun L =>
    (root_unknown_command L
      (clientWith
        [("help", (clientWith [("ping", pingCommand)]).helpCommand L),
         ("ping", pingCommand)])
      "@alice:example.org" "bogus" [] rfl).1,
   fun _ => rfl⟩

/-- C7 fails as stated: the token `a"b` is not registered, and the body of the reply is
`unknown command: "a\"b"`, with the quote of the token escaped, which is not the token
between two double quotes. -/
theorem root_unknown_command_escapes_token :
    (clientWith [("ping", pingCommand)]).Config.Commands.lookup "a\"b" = none ∧
    (∀ L : Lib,
      ((clientWith [("ping", pingCommand)]).rootCommand L).Execute L "@alice:example.org" ""
          ["a\"b"] =
        some (NewMarkdownMessage L "unknown command: \"a\\\"b\"")) ∧
    (∀ L : Lib, (NewMarkdownMessage L "unknown command: \"a\\\"b\"").Body =
      "unknown command: \"a\\\"b\"") ∧
    "unknown command: \"a\\\"b\"" ≠ "unknown command: " ++ ("\"" ++ "a\"b" ++ "\"") :=
  ⟨rfl, fun _ => rfl, fun _ => rfl, by decide⟩

/-- C8: `Execute` is a total function, and on a tree all of whose handlers return a message
for every input it returns a message for every sender, invoked name and arguments. -/
theorem Execute_returns_message (L : Lib) (T : Command) (sender name : String)
    (args : List String)
    (hT : EveryHandler (fun f => ∀ s n a, (f s n a).isSome = true) T) :
    (T.Execute L sender name args).isSome = true := by
  induction args generalizing T name with
  | nil =>
    rw [Execute_nil]
    exact executeSelf_isSome L T sender name [] (EveryHandler_self _ T hT)
  | cons a rest ih =>
    cases hl : T.Subcommands.lookup a with
    | none =>
      rw [Execute_cons_none L T sender name a rest hl]
      exact executeSelf_isSome L T sender name _ (EveryHandler_self _ T hT)
    | some child =>
      rw [Execute_cons_some L T child sender name a rest hl]
      by_cases hc : child.MessageHandler.isSome = true
      · rw [if_pos hc]
        exact ih child a (EveryHandler_lookup _ T child a hT hl)
      · rw [if_neg hc]
        exact executeSelf_isSome L T sender name _ (EveryHandler_self _ T hT)

/-- The tree of `admin` over `ban`, whose handlers always reply, replies to
`ban userX`. -/
theorem Execute_returns_message_witness :
    EveryHandler (fun f => ∀ s n a, (f s n a).isSome = true) adminCommand ∧
    ∀ L : Lib,
      (adminCommand.Execute L "@alice:example.org" "admin" ["ban", "userX"]).isSome = true :=
  have hT : EveryHandler (fun f => ∀ s n a, (f s n a).isSome = true) adminCommand := by
    simp [EveryHandler, EveryHandler.children, adminCommand, banCommand, echoHandler]
  ⟨hT, fun L =>
    Execute_returns_message L adminCommand "@alice:example.org" "admin" ["ban", "userX"] hT⟩

/-- C9: when the names of `path` lead from the root through `Subcommands` to a node `N`
without subcommands, the help handler called with `path` as arguments returns a message whose
body is exactly `N.Help()`; so does the help handler of a client with that root command. -/
theorem helpHandler_of_leaf (L : Lib) (root N : Command) (sender cmd : String)
    (path : List String)
    (hpath : root.follow path = some N)
    (hleaf : N.Subcommands = []) :
    (∃ m, root.helpHandler L sender cmd path = some m ∧ m.Body = N.Help) ∧
    (N.Help = if N.Description ≠ "" then N.Description else N.Summary) ∧
    ∀ cl : Client, cl.rootCommand L = root →
      ∃ m, cl.helpHandler L sender cmd path = some m ∧ m.Body = N.Help := by
  have hget : root.GetCommand cmd path = N := GetCommand_of_follow root N cmd path hpath
  have hmain : ∃ m, root.helpHandler L sender cmd path = some m ∧ m.Body = N.Help :=
    ⟨_, rfl, by rw [hget]; exact HelpMessage_leaf_Body L N hleaf⟩
  refine ⟨hmain, rfl, ?_⟩
  intro cl hcl
  unfold Client.helpHandler
  rw [hcl]
  exact hmain

/-- Scenario 5: `help admin ban` returns the description of `ban` and nothing else. -/
theorem helpHandler_of_leaf_witness :
    banCommand.Subcommands = [] ∧
    ∀ L : Lib,
      ((clientWith [("admin", adminGroup)]).rootCommand L).follow ["admin", "ban"] =
        some banCommand ∧
      ∃ m, (clientWith [("admin", adminGroup)]).helpHandler L "@alice:example.org" "help"
          ["admin", "ban"] = some m ∧
        m.Body = "Bans the given user from the room." :=
  ⟨rfl, fun L =>
    ⟨rfl,
     (helpHandler_of_leaf L ((clientWith [("admin", adminGroup)]).rootCommand L) banCommand
        "@alice:example.org" "help" ["admin", "ban"] rfl rfl).2.2
        (clientWith [("admin", adminGroup)]) rfl⟩⟩
theorem Command.induct {P : Command → Prop}
    (step : ∀ s d h subs, (∀ p ∈ subs, P p.2) → P ⟨s, d, h, subs⟩) : ∀ c, P c
  | ⟨s, d, h, subs⟩ => step s d h subs (go subs)
where
  go : ∀ (subs : List (String × Command)) (p : String × Command), p ∈ subs → P p.2
  | [], _, hp => by simp at hp
  | (n, c) :: rest, p, hp => by
    rcases List.mem_cons.1 hp with h1 | h2
    · subst h1
      exact Command.induct step c
    · exact go rest p h2


/-! ## Lemmas on maps kept as association lists -/

theorem mapSet_of_not_mem (m : List (String × String)) (k v : String)
    (h : k ∉ m.map Prod.fst) : mapSet m k v = m ++ [(k, v)] := by
  induction m with
  | nil => rfl
  | cons p rest ih =>
    obtain ⟨k0, v0⟩ := p
    simp only [List.map_cons, List.mem_cons, not_or] at h
    have hne : ¬ k0 = k := fun e => h.1 e.symm
    simp [mapSet, hne, ih h.2]

theorem foldl_mapSet (g : String × String → String) (l m : List (String × String))
    (h : (m.map Prod.fst ++ l.map g).Nodup) :
    l.foldl (fun help kv => mapSet help (g kv) kv.2) m = m ++ l.map (fun kv => (g kv, kv.2)) := by
  induction l generalizing m with
  | nil => simp
  | cons kv rest ih =>
    have hnot : g kv ∉ m.map Prod.fst := by
      intro hmem
      have := (List.nodup_append.1 h).2.2
      exact this hmem (List.mem_cons_self _ _)
    rw [List.foldl_cons, mapSet_of_not_mem m (g kv) kv.2 hnot]
    rw [ih (m ++ [(g kv, kv.2)])]
    · simp
    · simpa [List.map_append, List.append_assoc] using h

theorem lookup_of_mem_nodup (l : List (String × String)) (k v : String)
    (hnd : (l.map Prod.fst).Nodup) (hmem : (k, v) ∈ l) : l.lookup k = some v := by
  induction l with
  | nil => simp at hmem
  | cons p rest ih =>
    obtain ⟨k0, v0⟩ := p
    simp only [List.map_cons, List.nodup_cons] at hnd
    rcases List.mem_cons.1 hmem with h1 | h2
    · cases h1
      simp [List.lookup]
    · have hne : ¬ k = k0 := by
        intro e
        subst e
        exact hnd.1 (List.mem_map_of_mem Prod.fst h2)
      have hb : (k == k0) = false := by simpa using hne
      simp [List.lookup, hb, ih hnd.2 h2]

/-! ## Lemmas on the help listing -/

theorem descendants_mk (s d : String) (h : Option Handler) (subs : List (String × Command)) :
    Command.descendants ⟨s, d, h, subs⟩ = Command.descendants.children subs := by
  rw [Command.descendants]

theorem descendants_eq (c : Command) :
    c.descendants = Command.descendants.children c.Subcommands := by
  obtain ⟨s, d, h, subs⟩ := c
  exact descendants_mk s d h subs

theorem children_cons (n : String) (c : Command) (rest : List (String × Command)) :
    Command.descendants.children ((n, c) :: rest) =
      ([n], c) :: c.descendants.map (fun p => (n :: p.1, p.2)) ++
        Command.descendants.children rest := by
  rw [Command.descendants.children]

theorem helpSummary_mk (s d : String) (h : Option Handler) (subs : List (String × Command)) :
    Command.helpSummary ⟨s, d, h, subs⟩ = Command.helpSummary.range subs [("", s)] := by
  rw [Command.helpSummary]

theorem range_cons (n : String) (c : Command) (rest : List (String × Command))
    (help : List (String × String)) :
    Command.helpSummary.range ((n, c) :: rest) help =
      Command.helpSummary.range rest
        (c.helpSummary.foldl (fun help kv => mapSet help (n ++ " " ++ kv.1) kv.2) help) := by
  rw [Command.helpSummary.range]

theorem summaryKey_children_cons (n : String) (c : Command)
    (rest : List (String × Command)) :
    (Command.descendants.children ((n, c) :: rest)).map
        (fun p => (summaryKey p.1, p.2.Summary)) =
      c.summaryEntries.map (fun kv => (n ++ " " ++ kv.1, kv.2)) ++
        (Command.descendants.children rest).map (fun p => (summaryKey p.1, p.2.Summary)) := by
  rw [children_cons]
  simp [Command.summaryEntries, summaryKey, List.map_map, Function.comp_def]

theorem space_append_injective (n : String) :
    Function.Injective (fun k : String => n ++ " " ++ k) := by
  intro a b h
  have h2 := congrArg String.data h
  simp only [String.data_append, List.append_cancel_left_eq] at h2
  exact String.ext h2

theorem range_eq (subs : List (String × Command))
    (ih : ∀ p ∈ subs, (p.2.summaryEntries.map Prod.fst).Nodup →
      p.2.helpSummary = p.2.summaryEntries)
    (help : List (String × String))
    (hnd : (help.map Prod.fst ++
      ((Command.descendants.children subs).map
        (fun p => (summaryKey p.1, p.2.Summary))).map Prod.fst).Nodup) :
    Command.helpSummary.range subs help =
      help ++ (Command.descendants.children subs).map
        (fun p => (summaryKey p.1, p.2.Summary)) := by
  induction subs generalizing help with
  | nil => simp [Command.helpSummary.range, Command.descendants.children]
  | cons p rest ihl =>
    obtain ⟨n, c⟩ := p
    rw [summaryKey_children_cons] at hnd ⊢
    rw [List.map_append, List.map_map, ← List.append_assoc] at hnd
    have hleft := (List.nodup_append.1 hnd).1
    have hc : (c.summaryEntries.map Prod.fst).Nodup := by
      have h1 := (List.nodup_append.1 hleft).2.1
      have h2 : (c.summaryEntries.map Prod.fst).map (fun k : String => n ++ " " ++ k) =
          List.map (Prod.fst ∘ fun kv => (n ++ " " ++ kv.1, kv.2)) c.summaryEntries := by
        simp [List.map_map, Function.comp_def]
      rw [← h2] at h1
      exact List.Nodup.of_map _ h1
    have hsum := ih (n, c) (List.mem_cons_self _ _) hc
    rw [range_cons, hsum]
    rw [foldl_mapSet (fun kv => n ++ " " ++ kv.1) c.summaryEntries help
      (by simpa [Function.comp_def] using hleft)]
    rw [ihl (fun q hq => ih q (List.mem_cons_of_mem _ hq))]
    · simp
    · simpa [List.map_append, List.map_map, Function.comp_def] using hnd

theorem helpSummary_eq (c : Command) :
    (c.summaryEntries.map Prod.fst).Nodup → c.helpSummary = c.summaryEntries := by
  induction c using Command.induct with
  | step s d h subs ih =>
    intro hnd
    rw [helpSummary_mk]
    have hnd2 : (([("", s)] : List (String × String)).map Prod.fst ++
        ((Command.descendants.children subs).map
          (fun p => (summaryKey p.1, p.2.Summary))).map Prod.fst).Nodup := by
      simpa [Command.summaryEntries, descendants_mk] using hnd
    rw [range_eq subs ih [("", s)] hnd2]
    simp [Command.summaryEntries, descendants_mk]

theorem space_append_ne_empty (m x : String) : m ++ " " ++ x ≠ "" := by
  intro h
  have h2 := congrArg String.data h
  simp [String.data_append] at h2

theorem pathLabel_cons (n : String) (path : List String) :
    pathLabel (n :: path) = labelOf n (summaryKey path) := by
  cases path with
  | nil => simp [pathLabel, summaryKey, labelOf]
  | cons m r =>
    have hne : summaryKey (m :: r) ≠ "" := by
      rw [summaryKey]
      exact space_append_ne_empty m (summaryKey r)
    simp [pathLabel, labelOf, hne]

theorem labelOf_injective (n : String) : Function.Injective (labelOf n) := by
  intro a b h
  unfold labelOf at h
  by_cases ha : a = "" <;> by_cases hb : b = ""
  · rw [ha, hb]
  · simp only [ha, hb, ne_eq, not_true_eq_false, not_false_eq_true, if_true, if_false] at h
    have h2 := congrArg (fun s : String => s.data.length) h
    simp [String.data_append] at h2
  · simp only [ha, hb, ne_eq, not_true_eq_false, not_false_eq_true, if_true, if_false] at h
    have h2 := congrArg (fun s : String => s.data.length) h
    simp [String.data_append] at h2
  · simp only [ha, hb, ne_eq, not_false_eq_true, if_true] at h
    exact space_append_injective n h

theorem pathLabel_children_cons (n : String) (c : Command) (rest : List (String × Command)) :
    (Command.descendants.children ((n, c) :: rest)).map
        (fun p => (pathLabel p.1, p.2.Summary)) =
      c.summaryEntries.map (fun kv => (labelOf n kv.1, kv.2)) ++
        (Command.descendants.children rest).map (fun p => (pathLabel p.1, p.2.Summary)) := by
  rw [children_cons]
  simp [Command.summaryEntries, pathLabel_cons, summaryKey, List.map_map, Function.comp_def]

theorem subcommandLabels_eq (c : Command) :
    c.subcommandLabels =
      c.Subcommands.foldl
        (fun acc nc =>
          nc.2.helpSummary.foldl
            (fun acc kv =>
              (acc.1 ++ [labelOf nc.1 kv.1], mapSet acc.2 (labelOf nc.1 kv.1) kv.2))
            acc)
        ([], []) := rfl

theorem foldl_labels (g : String × String → String) (l : List (String × String))
    (acc : List String × List (String × String)) :
    l.foldl (fun acc kv => (acc.1 ++ [g kv], mapSet acc.2 (g kv) kv.2)) acc =
      (acc.1 ++ l.map g, l.foldl (fun m kv => mapSet m (g kv) kv.2) acc.2) := by
  induction l generalizing acc with
  | nil => simp
  | cons kv rest ih => simp [ih]

theorem foldl_subcommands (subs : List (String × Command))
    (acc : List String × List (String × String))
    (hnd : (acc.2.map Prod.fst ++
      ((Command.descendants.children subs).map
        (fun p => (pathLabel p.1, p.2.Summary))).map Prod.fst).Nodup) :
    subs.foldl
        (fun acc nc =>
          nc.2.helpSummary.foldl
            (fun acc kv =>
              (acc.1 ++ [labelOf nc.1 kv.1], mapSet acc.2 (labelOf nc.1 kv.1) kv.2))
            acc)
        acc =
      (acc.1 ++ ((Command.descendants.children subs).map
          (fun p => (pathLabel p.1, p.2.Summary))).map Prod.fst,
        acc.2 ++ (Command.descendants.children subs).map
          (fun p => (pathLabel p.1, p.2.Summary))) := by
  induction subs generalizing acc with
  | nil => simp [Command.descendants.children]
  | cons p rest ihl =>
    obtain ⟨n, c⟩ := p
    rw [pathLabel_children_cons] at hnd ⊢
    rw [List.map_append, List.map_map, ← List.append_assoc] at hnd
    have hleft := (List.nodup_append.1 hnd).1
    have hc : (c.summaryEntries.map Prod.fst).Nodup := by
      have h1 := (List.nodup_append.1 hleft).2.1
      have h2 : (c.summaryEntries.map Prod.fst).map (labelOf n) =
          List.map (Prod.fst ∘ fun kv => (labelOf n kv.1, kv.2)) c.summaryEntries := by
        simp [List.map_map, Function.comp_def]
      rw [← h2] at h1
      exact List.Nodup.of_map _ h1
    rw [List.foldl_cons]
    simp only []
    rw [helpSummary_eq c hc, foldl_labels (fun kv => labelOf n kv.1)]
    rw [foldl_mapSet (fun kv => labelOf n kv.1) c.summaryEntries acc.2
      (by simpa [Function.comp_def] using hleft)]
    rw [ihl]
    · simp [List.map_map, Function.comp_def]
    · simpa [List.map_append, List.map_map, Function.comp_def] using hnd

theorem subcommandLabels_of_nodup (c : Command)
    (hnd : (c.descendants.map (fun p => pathLabel p.1)).Nodup) :
    c.subcommandLabels =
      (c.descendants.map (fun p => pathLabel p.1),
        c.descendants.map (fun p => (pathLabel p.1, p.2.Summary))) := by
  rw [subcommandLabels_eq, foldl_subcommands]
  · simp [descendants_eq, List.map_map, Function.comp_def]
  · simpa [descendants_eq, List.map_map, Function.comp_def] using hnd

theorem subcommandHelp_perm (c : Command)
    (hnd : (c.descendants.map (fun p => pathLabel p.1)).Nodup) :
    c.subcommandHelp.Perm (c.descendants.map helpLine) := by
  unfold Command.subcommandHelp
  rw [subcommandLabels_of_nodup c hnd]
  simp only []
  have hperm : (sortStrings (c.descendants.map (fun p => pathLabel p.1))).Perm
      (c.descendants.map (fun p => pathLabel p.1)) := List.perm_insertionSort _ _
  refine (hperm.map _).trans ?_
  rw [List.map_map]
  apply List.Perm.of_eq
  apply List.map_congr_left
  intro p hp
  have hkeys : ((c.descendants.map (fun p => (pathLabel p.1, p.2.Summary))).map
      Prod.fst).Nodup := by
    simpa [List.map_map, Function.comp_def] using hnd
  have hmem : (pathLabel p.1, p.2.Summary) ∈
      c.descendants.map (fun p => (pathLabel p.1, p.2.Summary)) :=
    List.mem_map_of_mem (fun p => (pathLabel p.1, p.2.Summary)) hp
  simp [helpLine, mapGet, lookup_of_mem_nodup _ _ _ hkeys hmem]

theorem HelpMessage_Body_of_subcommands (L : Lib) (c : Command) (hsub : c.Subcommands ≠ []) :
    (c.HelpMessage L).Body =
      String.intercalate "\n" ((if c.Help ≠ "" then [c.Help, ""] else []) ++ c.subcommandHelp) := by
  have hlen : c.Subcommands.length > 0 := List.length_pos.2 hsub
  by_cases h : c.Help = ""
  · simp [Command.HelpMessage, hlen, h, NewMarkdownMessage, NewHTMLMessage]
  · simp [Command.HelpMessage, hlen, h, NewMarkdownMessage, NewHTMLMessage]

theorem mem_children_of_mem (subs : List (String × Command)) (n : String) (sub : Command)
    (h : (n, sub) ∈ subs) :
    ([n], sub) ∈ Command.descendants.children subs ∧
      ∀ q ∈ sub.descendants, (n :: q.1, q.2) ∈ Command.descendants.children subs := by
  induction subs with
  | nil => simp at h
  | cons p rest ih =>
    obtain ⟨m, c⟩ := p
    rw [children_cons]
    rcases List.mem_cons.1 h with h1 | h2
    · cases h1
      refine ⟨by simp, fun q hq => ?_⟩
      have : (n :: q.1, q.2) ∈ sub.descendants.map (fun p => (n :: p.1, p.2)) :=
        List.mem_map_of_mem (fun p : List String × Command => (n :: p.1, p.2)) hq
      simp only [List.cons_append, List.mem_cons, List.mem_append]
      exact Or.inr (Or.inl this)
    · obtain ⟨ih1, ih2⟩ := ih h2
      refine ⟨?_, fun q hq => ?_⟩
      · simp only [List.cons_append, List.mem_cons, List.mem_append]
        exact Or.inr (Or.inr ih1)
      · simp only [List.cons_append, List.mem_cons, List.mem_append]
        exact Or.inr (Or.inr (ih2 q hq))

theorem mem_of_lookup (subs : List (String × Command)) (n : String) (sub : Command)
    (h : subs.lookup n = some sub) : (n, sub) ∈ subs := by
  induction subs with
  | nil => simp at h
  | cons p rest ih =>
    obtain ⟨m, c⟩ := p
    by_cases hn : n = m
    · subst hn
      simp [List.lookup] at h
      subst h
      exact List.mem_cons_self _ _
    · have hb : (n == m) = false := by simpa using hn
      simp [List.lookup, hb] at h
      exact List.mem_cons_of_mem _ (ih h)

theorem mem_descendants_of_follow (c d : Command) (path : List String) (hne : path ≠ [])
    (h : c.follow path = some d) : (path, d) ∈ c.descendants := by
  induction path generalizing c with
  | nil => exact absurd rfl hne
  | cons n rest ih =>
    rw [Command.follow] at h
    cases hl : c.Subcommands.lookup n with
    | none => simp [hl] at h
    | some sub =>
      simp only [hl] at h
      obtain ⟨h1, h2⟩ := mem_children_of_mem c.Subcommands n sub (mem_of_lookup _ _ _ hl)
      rw [descendants_eq]
      cases rest with
      | nil =>
        simp [Command.follow] at h
        subst h
        exact h1
      | cons m r => exact h2 (m :: r, d) (ih sub (by simp) h)

/-- C10 (as amended): for a command with subcommands in which no two descendants get the
same label, the body of `HelpMessage` is the command's own help followed by the lines of
`subcommandHelp`, and those lines are, up to order, exactly one line for every descendant at
every depth, whether the descendant has a handler or not; in particular every command
reached by a path of names has its line in the listing. -/
theorem HelpMessage_lists_every_descendant (L : Lib) (c : Command)
    (hsub : c.Subcommands ≠ [])
    (hnd : (c.descendants.map (fun p => pathLabel p.1)).Nodup) :
    (c.HelpMessage L).Body =
        String.intercalate "\n"
          ((if c.Help ≠ "" then [c.Help, ""] else []) ++ c.subcommandHelp) ∧
      c.subcommandHelp.Perm (c.descendants.map helpLine) ∧
      c.subcommandHelp.length = c.descendants.length ∧
      ∀ (path : List String) (d : Command), path ≠ [] → c.follow path = some d →
        helpLine (path, d) ∈ c.subcommandHelp := by
  have hperm := subcommandHelp_perm c hnd
  refine ⟨HelpMessage_Body_of_subcommands L c hsub, hperm, ?_, ?_⟩
  · simpa using hperm.length_eq
  · intro path d hne hfollow
    exact hperm.symm.subset
      (List.mem_map_of_mem helpLine (mem_descendants_of_follow c d path hne hfollow))

/-- Below the command with the reporting handler lie `admin`, without handler, and
`admin ban`; the listing has one line for each. -/
theorem HelpMessage_lists_every_descendant_witness :
    (echoOverGroup.Subcommands ≠ [] ∧
      (echoOverGroup.descendants.map (fun p => pathLabel p.1)).Nodup) ∧
    echoOverGroup.descendants = [(["admin"], adminGroup), (["admin", "ban"], banCommand)] ∧
    ∀ L : Lib,
      (echoOverGroup.HelpMessage L).Body =
          "Top.\n\n- `admin`: Administration.\n- `admin ban `: Bans a user." ∧
        echoOverGroup.subcommandHelp.Perm (echoOverGroup.descendants.map helpLine) :=
  have hsub : echoOverGroup.Subcommands ≠ [] := by simp [echoOverGroup]
  have hnd : (echoOverGroup.descendants.map (fun p => pathLabel p.1)).Nodup := by decide
  ⟨⟨hsub, hnd⟩, rfl, fun L =>
    ⟨(HelpMessage_lists_every_descendant L echoOverGroup hsub hnd).1,
     (HelpMessage_lists_every_descendant L echoOverGroup hsub hnd).2.1⟩⟩

/-- C10 fails as stated, in two ways. Below the command with the reporting handler, `admin`
has no handler and `ban` has one, so one descendant has a handler; the listing has two lines,
one of them for `admin`. And in the tree with the name `b c`, all four descendants have a
handler, but the paths `b c` and `b`, `c` below `a` share the key `b c ` in `helpSummary`, and
the listing has three lines. -/
theorem listing_includes_commands_without_handler :
    echoOverGroup.descendants = [(["admin"], adminGroup), (["admin", "ban"], banCommand)] ∧
    adminGroup.MessageHandler = none ∧
    (echoOverGroup.descendants.filter (fun p => p.2.MessageHandler.isSome)).length = 1 ∧
    echoOverGroup.subcommandHelp =
      ["- `admin`: Administration.", "- `admin ban `: Bans a user."] ∧
    helpLine (["admin"], adminGroup) ∈ echoOverGroup.subcommandHelp ∧
    (∀ L : Lib, (echoOverGroup.HelpMessage L).Body =
      "Top.\n\n- `admin`: Administration.\n- `admin ban `: Bans a user.") ∧
    spacedTree.descendants.map (fun p => p.1) =
      [["a"], ["a", "b c"], ["a", "b"], ["a", "b", "c"]] ∧
    (spacedTree.descendants.filter (fun p => p.2.MessageHandler.isSome)).length = 4 ∧
    spacedTree.subcommandHelp.length = 3 :=
  ⟨rfl, rfl, rfl, by decide, by decide, fun _ => rfl, by decide, rfl, by decide⟩

/-! ## Lemmas on prefixes -/

theorem HasPrefix_append (p r : String) : HasPrefix (p ++ r) p = true := by
  simp [HasPrefix, String.data_append]

theorem TrimPrefix_append (p r : String) : TrimPrefix (p ++ r) p = r := by
  simp [TrimPrefix, HasPrefix_append, String.data_append]

theorem handlePrefixes_first (L : Lib) (c : Client) (sender text p : String)
    (pre post : List String)
    (hfirst : ∀ q ∈ pre, HasPrefix text q = false)
    (hp : HasPrefix text p = true) :
    c.handlePrefixes L sender text (pre ++ p :: post) =
      c.handleTextMessage L sender (TrimPrefix text p) := by
  induction pre with
  | nil => simp [Client.handlePrefixes, hp]
  | cons q rest ih =>
    have hq : HasPrefix text q = false := hfirst q (List.mem_cons_self _ _)
    simp only [List.cons_append, Client.handlePrefixes, hq]
    exact ih (fun x hx => hfirst x (List.mem_cons_of_mem _ hx))

theorem handlePrefixes_none (L : Lib) (c : Client) (sender text : String)
    (l : List String) (hnone : ∀ q ∈ l, HasPrefix text q = false) :
    c.handlePrefixes L sender text l = none := by
  induction l with
  | nil => rfl
  | cons q rest ih =>
    have hq : HasPrefix text q = false := hnone q (List.mem_cons_self _ _)
    simp only [Client.handlePrefixes, hq]
    exact ih (fun x hx => hnone x (List.mem_cons_of_mem _ hx))

theorem handleHighlight_own (L : Lib) (c : Client) (sender r : String) :
    c.handleHighlight L sender (c.UserID ++ ": " ++ r) =
      some (c.handleTextMessage L sender r) := by
  unfold Client.handleHighlight
  rw [HasPrefix_append, TrimPrefix_append]
  simp

theorem handleHighlight_none (L : Lib) (c : Client) (sender text : String)
    (hown : HasPrefix text (c.UserID ++ ": ") = false)
    (hname : ∀ dn, c.GetOwnDisplayName = Except.ok dn → HasPrefix text (dn ++ ": ") = false) :
    c.handleHighlight L sender text = none := by
  unfold Client.handleHighlight
  rw [hown]
  cases hdn : c.GetOwnDisplayName with
  | error err => simp
  | ok dn => simp [hname dn hdn]

theorem handleCommand_of_no_highlight (L : Lib) (c : Client) (sender room text : String)
    (hsender : sender ≠ c.UserID)
    (hnohl : c.Config.IgnoreHighlights = true ∨
      (HasPrefix text (c.UserID ++ ": ") = false ∧
        ∀ dn, c.GetOwnDisplayName = Except.ok dn → HasPrefix text (dn ++ ": ") = false)) :
    c.handleCommand L { Sender := sender, RoomID := room, Body := some text } =
      c.handlePrefixes L sender text c.Config.CommandPrefixes := by
  unfold Client.handleCommand
  rcases hnohl with hig | ⟨hown, hname⟩
  · simp [hsender, hig]
  · by_cases hig : c.Config.IgnoreHighlights = true
    · simp [hsender, hig]
    · simp [hsender, hig, handleHighlight_none L c sender text hown hname]

theorem handleCommand_of_own_highlight (L : Lib) (c : Client) (sender room r : String)
    (hsender : sender ≠ c.UserID) (hhl : c.Config.IgnoreHighlights = false) :
    c.handleCommand L { Sender := sender, RoomID := room, Body := some (c.UserID ++ ": " ++ r) } =
      c.handleTextMessage L sender r := by
  unfold Client.handleCommand
  simp [hsender, hhl, handleHighlight_own]

theorem contains_iff (list : List String) (s : String) : contains list s = true ↔ s ∈ list := by
  unfold contains
  rw [List.any_eq_true]
  constructor
  · rintro ⟨x, hx, he⟩
    have hxs : x = s := by simpa using he
    exact hxs ▸ hx
  · intro h
    exact ⟨s, h, by simp⟩

theorem Allowed_false_of_not_mem (r : Room) (hne : r.client.Config.AllowedRooms ≠ [])
    (hnot : r.ID ∉ r.client.Config.AllowedRooms) : r.Allowed = false := by
  unfold Room.Allowed
  have hlen : ¬ r.client.Config.AllowedRooms.length = 0 := by
    simpa [List.length_eq_zero] using hne
  rw [if_neg hlen]
  cases hc : contains r.client.Config.AllowedRooms r.ID with
  | false => rfl
  | true => exact absurd ((contains_iff _ _).1 hc) hnot

/-- C14: the body of `NewMarkdownMessage(x)` is `x` itself, and the message is
`NewHTMLMessage(x, render(x))` for the Markdown renderer. -/
theorem NewMarkdownMessage_keeps_source (L : Lib) (x : String) :
    (NewMarkdownMessage L x).Body = x ∧
      NewMarkdownMessage L x = NewHTMLMessage x (L.render x) :=
  ⟨rfl, rfl⟩

/-- C15 (as amended): in a message built by `NewTextMessage`, `NewHTMLMessage` or
`NewMarkdownMessage`, a non-empty `FormattedBody` comes with a set `Format`, and a set
`Format` is the tag `org.matrix.custom.html`; `NewTextMessage` leaves both empty, while
`NewHTMLMessage` and `NewMarkdownMessage` always set the tag and store the given HTML,
respectively the rendering, whether it is empty or not. -/
theorem constructors_set_format (L : Lib) (text plain html markdown : String) :
    ((NewTextMessage text).FormattedBody = "" ∧ (NewTextMessage text).Format = "") ∧
    ((NewHTMLMessage plain html).FormattedBody = html ∧
      (NewHTMLMessage plain html).Format = "org.matrix.custom.html") ∧
    ((NewMarkdownMessage L markdown).FormattedBody = L.render markdown ∧
      (NewMarkdownMessage L markdown).Format = "org.matrix.custom.html") ∧
    ∀ m : Message,
      m = NewTextMessage text ∨ m = NewHTMLMessage plain html ∨
          m = NewMarkdownMessage L markdown →
        (m.FormattedBody ≠ "" → m.Format ≠ "") ∧
          (m.Format ≠ "" → m.Format = "org.matrix.custom.html") := by
  refine ⟨⟨rfl, rfl⟩, ⟨rfl, rfl⟩, ⟨rfl, rfl⟩, ?_⟩
  intro m hm
  rcases hm with h | h | h <;> subst h <;>
    simp [NewTextMessage, NewHTMLMessage, NewMarkdownMessage]

/-- C15 fails as stated: `NewHTMLMessage` given the empty string as HTML builds a message
whose `Format` is set although its `FormattedBody` is empty. -/
theorem NewHTMLMessage_empty_html :
    (NewHTMLMessage "hello" "").FormattedBody = "" ∧
    (NewHTMLMessage "hello" "").Format = "org.matrix.custom.html" ∧
    ¬ ((NewHTMLMessage "hello" "").FormattedBody ≠ "" ↔ (NewHTMLMessage "hello" "").Format ≠ "") := by
  refine ⟨rfl, rfl, ?_⟩
  decide

/-- C16: `Allowed()` is true exactly when the allow-list is empty or holds an element equal
to the room ID; so it is true for every room when the list is empty and false for every room
that a non-empty list does not hold. -/
theorem Allowed_iff (r : Room) :
    (r.Allowed = true ↔
      (r.client.Config.AllowedRooms = [] ∨ ∃ x ∈ r.client.Config.AllowedRooms, x = r.ID)) ∧
    (r.client.Config.AllowedRooms = [] → r.Allowed = true) ∧
    (r.client.Config.AllowedRooms ≠ [] → r.ID ∉ r.client.Config.AllowedRooms →
      r.Allowed = false) := by
  have hempty : r.client.Config.AllowedRooms = [] → r.Allowed = true := by
    intro h
    simp [Room.Allowed, h]
  refine ⟨⟨?_, ?_⟩, hempty, Allowed_false_of_not_mem r⟩
  · intro h
    by_cases hl : r.client.Config.AllowedRooms = []
    · exact Or.inl hl
    · right
      have hlen : ¬ r.client.Config.AllowedRooms.length = 0 := by
        simpa [List.length_eq_zero] using hl
      unfold Room.Allowed at h
      rw [if_neg hlen] at h
      exact ⟨r.ID, (contains_iff _ _).1 h, rfl⟩
  · rintro (hl | ⟨x, hx, hxe⟩)
    · exact hempty hl
    · subst hxe
      by_cases hlen : r.client.Config.AllowedRooms.length = 0
      · simp [Room.Allowed, hlen]
      · unfold Room.Allowed
        rw [if_neg hlen]
        exact (contains_iff _ _).2 hx

theorem handleMessage_of_not_allowed (L : Lib) (c : Client) (out : Outbox) (e : Event)
    (h : (c.NewRoom e.RoomID).Allowed = false) : c.handleMessage L out e = out := by
  simp [Client.handleMessage, h]

theorem handleMessageTraced_of_not_allowed (L : Lib) (c : Client) (out : Outbox) (e : Event)
    (h : (c.NewRoom e.RoomID).Allowed = false) : c.handleMessageTraced L out e = (out, []) := by
  simp [Client.handleMessageTraced, h]

theorem executeSelfTraced_fst (L : Lib) (c : Command) (sender cmd : String)
    (args : List String) :
    (c.executeSelfTraced L sender cmd args).1 = c.executeSelf L sender cmd args := by
  unfold Command.executeSelfTraced Command.executeSelf
  cases c.MessageHandler <;> rfl

theorem ExecuteTraced_fst (L : Lib) (c : Command) (sender cmd : String) (args : List String) :
    (c.ExecuteTraced L sender cmd args).1 = c.Execute L sender cmd args := by
  induction args generalizing c cmd with
  | nil =>
    rw [Command.ExecuteTraced, Command.Execute]
    exact executeSelfTraced_fst L c sender cmd []
  | cons a rest ih =>
    rw [Command.ExecuteTraced, Command.Execute]
    cases c.Subcommands.lookup a with
    | none => exact executeSelfTraced_fst L c sender cmd (a :: rest)
    | some sub =>
      by_cases hs : sub.MessageHandler.isSome = true
      · simp only [hs, if_true]
        exact ih sub a
      · simp only [hs]
        exact executeSelfTraced_fst L c sender cmd (a :: rest)

theorem handleTextMessageTraced_fst (L : Lib) (c : Client) (sender text : String) :
    (c.handleTextMessageTraced L sender text).1 = c.handleTextMessage L sender text :=
  ExecuteTraced_fst L _ sender "" _

theorem handlePrefixesTraced_fst (L : Lib) (c : Client) (sender text : String)
    (l : List String) :
    (c.handlePrefixesTraced L sender text l).1 = c.handlePrefixes L sender text l := by
  induction l with
  | nil => rfl
  | cons p rest ih =>
    rw [Client.handlePrefixesTraced, Client.handlePrefixes]
    by_cases hp : HasPrefix text p = true
    · simp only [hp, if_true]
      exact handleTextMessageTraced_fst L c sender _
    · simp only [hp]
      exact ih

theorem handleHighlightTraced_fst (L : Lib) (c : Client) (sender text : String) :
    (c.handleHighlightTraced L sender text).1 = c.handleHighlight L sender text := by
  unfold Client.handleHighlightTraced Client.handleHighlight
  by_cases hown : HasPrefix text (c.UserID ++ ": ") = true
  · rw [if_pos hown, if_pos hown]
    exact congrArg some (handleTextMessageTraced_fst L c sender _)
  · rw [if_neg hown, if_neg hown]
    cases c.GetOwnDisplayName with
    | error err => rfl
    | ok dn =>
      dsimp only
      by_cases hdn : HasPrefix text (dn ++ ": ") = true
      · rw [if_pos hdn, if_pos hdn]
        exact congrArg some (handleTextMessageTraced_fst L c sender _)
      · rw [if_neg hdn, if_neg hdn]

theorem handleCommandTraced_fst (L : Lib) (c : Client) (e : Event) :
    (c.handleCommandTraced L e).1 = c.handleCommand L e := by
  unfold Client.handleCommandTraced Client.handleCommand
  cases e.Body with
  | none => rfl
  | some text =>
    by_cases hs : e.Sender = c.UserID
    · simp only [hs, if_true]
    · simp only [hs, if_false]
      by_cases hig : c.Config.IgnoreHighlights = true
      · simp [hig, handlePrefixesTraced_fst]
      · have hfalse : c.Config.IgnoreHighlights = false := by simpa using hig
        simp only [hfalse, Bool.not_false, if_true]
        rw [handleHighlightTraced_fst]
        cases c.handleHighlight L e.Sender text with
        | none => simp [handlePrefixesTraced_fst]
        | some reply => rfl

theorem handleMessageTraced_fst (L : Lib) (c : Client) (out : Outbox) (e : Event) :
    (c.handleMessageTraced L out e).1 = c.handleMessage L out e := by
  unfold Client.handleMessageTraced Client.handleMessage
  by_cases ha : (c.NewRoom e.RoomID).Allowed = true
  · simp only [ha, Bool.not_true, Bool.false_eq_true, if_false]
    rw [handleCommandTraced_fst]
    cases c.handleCommand L e <;> rfl
  · have hfalse : (c.NewRoom e.RoomID).Allowed = false := by simpa using ha
    simp [hfalse]

theorem executeSelfTraced_sends (L : Lib) (c : Command) (sender cmd : String)
    (args : List String) :
    (c.executeSelfTraced L sender cmd args).2.filterMap Effect.sent = [] := by
  unfold Command.executeSelfTraced
  cases c.MessageHandler <;> rfl

theorem ExecuteTraced_sends (L : Lib) (c : Command) (sender cmd : String)
    (args : List String) :
    (c.ExecuteTraced L sender cmd args).2.filterMap Effect.sent = [] := by
  induction args generalizing c cmd with
  | nil =>
    rw [Command.ExecuteTraced]
    exact executeSelfTraced_sends L c sender cmd []
  | cons a rest ih =>
    rw [Command.ExecuteTraced]
    cases c.Subcommands.lookup a with
    | none => exact executeSelfTraced_sends L c sender cmd (a :: rest)
    | some sub =>
      by_cases hs : sub.MessageHandler.isSome = true
      · simp only [hs, if_true]
        exact ih sub a
      · simp only [hs]
        exact executeSelfTraced_sends L c sender cmd (a :: rest)

theorem handlePrefixesTraced_sends (L : Lib) (c : Client) (sender text : String)
    (l : List String) :
    (c.handlePrefixesTraced L sender text l).2.filterMap Effect.sent = [] := by
  induction l with
  | nil => rfl
  | cons p rest ih =>
    rw [Client.handlePrefixesTraced]
    by_cases hp : HasPrefix text p = true
    · rw [if_pos hp]
      exact ExecuteTraced_sends L _ sender "" _
    · rw [if_neg hp]
      exact ih

theorem handleHighlightTraced_sends (L : Lib) (c : Client) (sender text : String) :
    (c.handleHighlightTraced L sender text).2.filterMap Effect.sent = [] := by
  unfold Client.handleHighlightTraced
  by_cases hown : HasPrefix text (c.UserID ++ ": ") = true
  · rw [if_pos hown]
    exact ExecuteTraced_sends L _ sender "" _
  · rw [if_neg hown]
    cases c.GetOwnDisplayName with
    | error err => rfl
    | ok dn =>
      dsimp only
      by_cases hdn : HasPrefix text (dn ++ ": ") = true
      · rw [if_pos hdn]
        have h := ExecuteTraced_sends L (c.rootCommand L) sender ""
          (SplitSpace (TrimSpace L (TrimPrefix text (dn ++ ": "))))
        simpa [Client.handleTextMessageTraced, List.filterMap_cons, Effect.sent] using h
      · rw [if_neg hdn]
        rfl

theorem handleCommandTraced_sends (L : Lib) (c : Client) (e : Event) :
    (c.handleCommandTraced L e).2.filterMap Effect.sent = [] := by
  unfold Client.handleCommandTraced
  cases e.Body with
  | none => rfl
  | some text =>
    by_cases hs : e.Sender = c.UserID
    · simp only [hs, if_true]
      rfl
    · simp only [hs, if_false]
      by_cases hig : c.Config.IgnoreHighlights = true
      · simp [hig, handlePrefixesTraced_sends]
      · have hfalse : c.Config.IgnoreHighlights = false := by simpa using hig
        simp only [hfalse, Bool.not_false, if_true]
        cases hh : (c.handleHighlightTraced L e.Sender text).1 with
        | none =>
          simp [List.filterMap_append, handlePrefixesTraced_sends, handleHighlightTraced_sends]
        | some reply => exact handleHighlightTraced_sends L c e.Sender text

theorem SendMessage_outbox (r : Room) (out : Outbox) (message : Message) :
    (r.SendMessage out message).1 = out ++ [(r.ID, "m.room.message", r.outgoing message)] := by
  unfold Room.SendMessage
  dsimp only
  cases r.client.SendMessageEvent out r.ID "m.room.message" (r.outgoing message) <;> rfl

theorem handleMessageTraced_outbox (L : Lib) (c : Client) (out : Outbox) (e : Event) :
    (c.handleMessageTraced L out e).1 =
      out ++ (c.handleMessageTraced L out e).2.filterMap Effect.sent := by
  unfold Client.handleMessageTraced
  by_cases ha : (c.NewRoom e.RoomID).Allowed = true
  · simp only [ha, Bool.not_true, Bool.false_eq_true, if_false]
    cases hr : (c.handleCommandTraced L e).1 with
    | none => simp [handleCommandTraced_sends]
    | some response =>
      simp [List.filterMap_append, handleCommandTraced_sends, SendMessage_outbox, Effect.sent,
        Client.NewRoom]
  · have hfalse : (c.NewRoom e.RoomID).Allowed = false := by simpa using ha
    simp [hfalse]

/-- C17: an event of a room that a non-empty allow-list does not hold is dropped by
`handleMessage` at its first statement, before any matching or routing: no call is made, be
it of `GetOwnDisplayName`, of a command handler or of `SendMessageEvent`, and the outbox stays
as it was, for every sender, body, registered commands and transport. `handleMessage` has no
result, so there is no error it could return. -/
theorem handleMessage_drops_disallowed (L : Lib) (c : Client) (out : Outbox) (e : Event)
    (hne : c.Config.AllowedRooms ≠ [])
    (hnot : e.RoomID ∉ c.Config.AllowedRooms) :
    (c.NewRoom e.RoomID).Allowed = false ∧
    c.handleMessageTraced L out e = (out, []) ∧
    c.handleMessage L out e = out ∧
    ∀ (c2 : Client) (e2 : Event), c2.Config.AllowedRooms = c.Config.AllowedRooms →
      e2.RoomID = e.RoomID →
      c2.handleMessageTraced L out e2 = (out, []) ∧ c2.handleMessage L out e2 = out := by
  have key : ∀ (c2 : Client) (e2 : Event), c2.Config.AllowedRooms = c.Config.AllowedRooms →
      e2.RoomID = e.RoomID → (c2.NewRoom e2.RoomID).Allowed = false := by
    intro c2 e2 hc he
    exact Allowed_false_of_not_mem (c2.NewRoom e2.RoomID)
      (by simpa [Client.NewRoom, hc] using hne)
      (by simpa [Client.NewRoom, hc, he] using hnot)
  exact ⟨key c e rfl rfl, handleMessageTraced_of_not_allowed L c out e (key c e rfl rfl),
    handleMessage_of_not_allowed L c out e (key c e rfl rfl),
    fun c2 e2 hc he =>
      ⟨handleMessageTraced_of_not_allowed L c2 out e2 (key c2 e2 hc he),
       handleMessage_of_not_allowed L c2 out e2 (key c2 e2 hc he)⟩⟩

/-- Scenario 4: with the allow-list holding `!roomA` only, the event `!ping` in `!roomB`
causes no call and leaves the outbox empty, while the same event in `!roomA` makes the bot
request its display name, call the handler of `ping` and send the reply. -/
theorem handleMessage_drops_disallowed_witness :
    ((gatedClient (Except.ok "$1")).Config.AllowedRooms ≠ [] ∧
      "!roomB" ∉ (gatedClient (Except.ok "$1")).Config.AllowedRooms) ∧
    ∀ L : Lib,
      (gatedClient (Except.ok "$1")).handleMessageTraced L []
          { Sender := "@alice:example.org", RoomID := "!roomB", Body := some "!ping" } =
        ([], []) ∧
      (gatedClient (Except.ok "$1")).handleMessage L []
          { Sender := "@alice:example.org", RoomID := "!roomB", Body := some "!ping" } = [] ∧
      (gatedClient (Except.ok "$1")).handleMessageTraced L []
          { Sender := "@alice:example.org", RoomID := "!roomA", Body := some "!ping" } =
        ([("!roomA", "m.room.message",
            { MsgType := "m.notice", Body := "pong", FormattedBody := "", Format := "" })],
          [Effect.displayNameRequested,
           Effect.handlerCalled "@alice:example.org" "ping" [],
           Effect.messageSent "!roomA" "m.room.message"
             { MsgType := "m.notice", Body := "pong", FormattedBody := "", Format := "" }]) :=
  have hne : (gatedClient (Except.ok "$1")).Config.AllowedRooms ≠ [] := by
    simp [gatedClient]
  have hnot : "!roomB" ∉ (gatedClient (Except.ok "$1")).Config.AllowedRooms := by
    simp [gatedClient]
  ⟨⟨hne, hnot⟩, fun L =>
    ⟨(handleMessage_drops_disallowed L (gatedClient (Except.ok "$1")) []
        { Sender := "@alice:example.org", RoomID := "!roomB", Body := some "!ping" }
        hne hnot).2.1,
     (handleMessage_drops_disallowed L (gatedClient (Except.ok "$1")) []
        { Sender := "@alice:example.org", RoomID := "!roomB", Body := some "!ping" }
        hne hnot).2.2.1,
     rfl⟩⟩

/-- C18 (as amended): `SendMessage`, and with it `SendText`, `SendMarkdown` and `SendHTML`,
does not consult the allow-list: for every room it calls the transport with the message, its
type set if it was empty, and returns the event ID, or the transport's error behind
`error sending message: `; the outcome is the same under every allow-list. -/
theorem SendMessage_always_sends (L : Lib) (r : Room) (out : Outbox) (message : Message)
    (plain html markdown : String) (rooms : List String) :
    (r.SendMessage out message).1 = out ++ [(r.ID, "m.room.message", r.outgoing message)] ∧
    (r.SendMessage out message).2 =
      (match r.client.SendMessageEvent out r.ID "m.room.message" (r.outgoing message) with
        | Except.error err => Except.error ("error sending message: " ++ err)
        | Except.ok eventID => Except.ok eventID) ∧
    Room.SendMessage
        { r with client := { r.client with
            Config := { r.client.Config with AllowedRooms := rooms } } } out message =
      r.SendMessage out message ∧
    r.SendText out plain = r.SendMessage out (NewTextMessage plain) ∧
    r.SendMarkdown L out markdown = r.SendMessage out (NewMarkdownMessage L markdown) ∧
    r.SendHTML out plain html = r.SendMessage out (NewHTMLMessage plain html) := by
  refine ⟨?_, ?_, rfl, rfl, rfl, rfl⟩
  · unfold Room.SendMessage
    dsimp only
    cases r.client.SendMessageEvent out r.ID "m.room.message" (r.outgoing message) <;> rfl
  · unfold Room.SendMessage
    dsimp only
    cases r.client.SendMessageEvent out r.ID "m.room.message" (r.outgoing message) <;> rfl

/-- C18 fails as stated: with the allow-list holding `!roomA` only, the room `!roomB` is not
allowed, yet `SendMessage` on it calls the transport and returns the event ID, and
`SendText` returns the error of a failing transport. -/
theorem SendMessage_ignores_allow_list :
    ((gatedClient (Except.ok "$1")).NewRoom "!roomB").Allowed = false ∧
    ((gatedClient (Except.ok "$1")).NewRoom "!roomB").SendMessage [] (NewTextMessage "hello") =
      ([("!roomB", "m.room.message",
          { MsgType := "m.notice", Body := "hello", FormattedBody := "", Format := "" })],
        Except.ok "$1") ∧
    ((gatedClient (Except.error "M_FORBIDDEN")).NewRoom "!roomB").SendText [] "hello" =
      ([("!roomB", "m.room.message",
          { MsgType := "m.notice", Body := "hello", FormattedBody := "", Format := "" })],
        Except.error "error sending message: M_FORBIDDEN") :=
  ⟨by decide, rfl, rfl⟩

/-- C19: with highlights enabled and a sender other than the bot, the body made of the own
user ID, `": "` and `r` and the body `p ++ r`, where `p` is the first configured prefix that
`p ++ r` starts with and no highlight rule applies to `p ++ r`, get the same reply from
`handleCommand`: that of `handleTextMessage` on `r`. -/
theorem highlight_and_prefix_route_alike (L : Lib) (c : Client) (sender room r p : String)
    (pre post : List String)
    (hhl : c.Config.IgnoreHighlights = false)
    (hsender : sender ≠ c.UserID)
    (hcfg : c.Config.CommandPrefixes = pre ++ p :: post)
    (hfirst : ∀ q ∈ pre, HasPrefix (p ++ r) q = false)
    (hown : HasPrefix (p ++ r) (c.UserID ++ ": ") = false)
    (hname : ∀ dn, c.GetOwnDisplayName = Except.ok dn →
      HasPrefix (p ++ r) (dn ++ ": ") = false) :
    c.handleCommand L { Sender := sender, RoomID := room, Body := some (c.UserID ++ ": " ++ r) } =
        c.handleTextMessage L sender r ∧
      c.handleCommand L { Sender := sender, RoomID := room, Body := some (p ++ r) } =
        c.handleTextMessage L sender r := by
  refine ⟨handleCommand_of_own_highlight L c sender room r hsender hhl, ?_⟩
  rw [handleCommand_of_no_highlight L c sender room (p ++ r) hsender (Or.inr ⟨hown, hname⟩),
    hcfg, handlePrefixes_first L c sender (p ++ r) p pre post hfirst (HasPrefix_append p r),
    TrimPrefix_append]

/-- With `ping` registered and the prefix `!`, the bodies `@bot:example.org: ping` and `!ping`
are both answered by the handler of `ping`. -/
theorem highlight_and_prefix_route_alike_witness :
    ((clientWith [("ping", pingCommand)]).Config.IgnoreHighlights = false ∧
      "@alice:example.org" ≠ (clientWith [("ping", pingCommand)]).UserID ∧
      (clientWith [("ping", pingCommand)]).Config.CommandPrefixes = [] ++ "!" :: [] ∧
      (∀ q ∈ ([] : List String), HasPrefix ("!" ++ "ping") q = false) ∧
      HasPrefix ("!" ++ "ping") ((clientWith [("ping", pingCommand)]).UserID ++ ": ") = false ∧
      ∀ dn, (clientWith [("ping", pingCommand)]).GetOwnDisplayName = Except.ok dn →
        HasPrefix ("!" ++ "ping") (dn ++ ": ") = false) ∧
    ∀ L : Lib,
      (clientWith [("ping", pingCommand)]).handleCommand L
          { Sender := "@alice:example.org", RoomID := "!room",
            Body := some "@bot:example.org: ping" } = some (NewTextMessage "pong") ∧
      (clientWith [("ping", pingCommand)]).handleCommand L
          { Sender := "@alice:example.org", RoomID := "!room", Body := some "!ping" } =
        some (NewTextMessage "pong") :=
  have hname : ∀ dn, (clientWith [("ping", pingCommand)]).GetOwnDisplayName = Except.ok dn →
      HasPrefix ("!" ++ "ping") (dn ++ ": ") = false := by
    intro dn hdn
    have hbot : dn = "bot" := by
      have h2 : (Except.ok "bot" : Except GoError String) = Except.ok dn := hdn
      injection h2 with h3
      exact h3.symm
    subst hbot
    decide
  ⟨⟨rfl, by decide, rfl, by simp, by decide, hname⟩, fun L =>
    highlight_and_prefix_route_alike L (clientWith [("ping", pingCommand)])
      "@alice:example.org" "!room" "ping" "!" [] [] rfl (by decide) rfl (by simp) (by decide)
      hname⟩

/-- C20: when the highlight rule does not apply, `handleCommand` routes the text without the
first configured prefix it starts with, whatever prefixes follow; the empty prefix matches
every text and leaves it unchanged; when no prefix matches there is no reply. -/
theorem handleCommand_prefixes (L : Lib) (c : Client) (sender room text : String)
    (hsender : sender ≠ c.UserID)
    (hnohl : c.Config.IgnoreHighlights = true ∨
      (HasPrefix text (c.UserID ++ ": ") = false ∧
        ∀ dn, c.GetOwnDisplayName = Except.ok dn → HasPrefix text (dn ++ ": ") = false)) :
    (∀ (pre post : List String) (p rest : String),
      c.Config.CommandPrefixes = pre ++ p :: post →
      (∀ q ∈ pre, HasPrefix text q = false) → text = p ++ rest →
      c.handleCommand L { Sender := sender, RoomID := room, Body := some text } =
        c.handleTextMessage L sender rest) ∧
    (HasPrefix text "" = true ∧ TrimPrefix text "" = text) ∧
    (∀ pre post : List String,
      c.Config.CommandPrefixes = pre ++ "" :: post →
      (∀ q ∈ pre, HasPrefix text q = false) →
      c.handleCommand L { Sender := sender, RoomID := room, Body := some text } =
        c.handleTextMessage L sender text) ∧
    ((∀ q ∈ c.Config.CommandPrefixes, HasPrefix text q = false) →
      c.handleCommand L { Sender := sender, RoomID := room, Body := some text } = none) := by
  have hcmd := handleCommand_of_no_highlight L c sender room text hsender hnohl
  have hfirst : ∀ (pre post : List String) (p rest : String),
      c.Config.CommandPrefixes = pre ++ p :: post →
      (∀ q ∈ pre, HasPrefix text q = false) → text = p ++ rest →
      c.handleCommand L { Sender := sender, RoomID := room, Body := some text } =
        c.handleTextMessage L sender rest := by
    intro pre post p rest hcfg hpre htext
    rw [hcmd, hcfg, handlePrefixes_first L c sender text p pre post hpre
      (by rw [htext]; exact HasPrefix_append p rest), htext, TrimPrefix_append]
  have hemptyPrefix : text = "" ++ text := by
    apply String.ext
    simp [String.data_append]
  refine ⟨hfirst, ⟨?_, ?_⟩, ?_, ?_⟩
  · simp [HasPrefix]
  · simp [TrimPrefix, HasPrefix]
  · intro pre post hcfg hpre
    exact hfirst pre post "" text hcfg hpre hemptyPrefix
  · intro hnone
    rw [hcmd]
    exact handlePrefixes_none L c sender text _ hnone

/-- With the prefix `!` configured, `!ping` is routed as `ping`, `!!ping` as `!ping`, and
`ping` gets no reply. -/
theorem handleCommand_prefixes_witness :
    ("@alice:example.org" ≠ (clientWith [("ping", pingCommand)]).UserID ∧
      ((clientWith [("ping", pingCommand)]).Config.IgnoreHighlights = true ∨
        (HasPrefix "!!ping" ((clientWith [("ping", pingCommand)]).UserID ++ ": ") = false ∧
          ∀ dn, (clientWith [("ping", pingCommand)]).GetOwnDisplayName = Except.ok dn →
            HasPrefix "!!ping" (dn ++ ": ") = false))) ∧
    ∀ L : Lib,
      (clientWith [("ping", pingCommand)]).handleCommand L
          { Sender := "@alice:example.org", RoomID := "!room", Body := some "!!ping" } =
        (clientWith [("ping", pingCommand)]).handleTextMessage L "@alice:example.org" "!ping" ∧
      (clientWith [("ping", pingCommand)]).handleCommand L
          { Sender := "@alice:example.org", RoomID := "!room", Body := some "!ping" } =
        some (NewTextMessage "pong") ∧
      (clientWith [("ping", pingCommand)]).handleCommand L
          { Sender := "@alice:example.org", RoomID := "!room", Body := some "ping" } = none :=
  have hname : ∀ dn, (clientWith [("ping", pingCommand)]).GetOwnDisplayName = Except.ok dn →
      HasPrefix "!!ping" (dn ++ ": ") = false := by
    intro dn hdn
    have hbot : dn = "bot" := by
      have h2 : (Except.ok "bot" : Except GoError String) = Except.ok dn := hdn
      injection h2 with h3
      exact h3.symm
    subst hbot
    decide
  have hnohl : (clientWith [("ping", pingCommand)]).Config.IgnoreHighlights = true ∨
      (HasPrefix "!!ping" ((clientWith [("ping", pingCommand)]).UserID ++ ": ") = false ∧
        ∀ dn, (clientWith [("ping", pingCommand)]).GetOwnDisplayName = Except.ok dn →
          HasPrefix "!!ping" (dn ++ ": ") = false) :=
    Or.inr ⟨by decide, hname⟩
  ⟨⟨by decide, hnohl⟩, fun L =>
    ⟨(handleCommand_prefixes L (clientWith [("ping", pingCommand)]) "@alice:example.org"
        "!room" "!!ping" (by decide) hnohl).1 [] [] "!" "!ping" rfl (by simp) (by decide),
     rfl, rfl⟩⟩

/-! ## Lemmas on the listing that hold for all names -/

theorem sorted_sortStrings (l : List String) :
    (sortStrings l).Sorted (fun a b => a.data ≤ b.data) := by
  haveI : IsTotal String (fun a b => a.data ≤ b.data) := ⟨fun a b => le_total a.data b.data⟩
  haveI : IsTrans String (fun a b => a.data ≤ b.data) :=
    ⟨fun a b c hab hbc => le_trans hab hbc⟩
  exact List.sorted_insertionSort _ l

theorem chars_append_space_inj (n m a b : List Char)
    (hn : Char.ofNat 0x20 ∉ n) (hm : Char.ofNat 0x20 ∉ m)
    (h : n ++ Char.ofNat 0x20 :: a = m ++ Char.ofNat 0x20 :: b) : n = m ∧ a = b := by
  induction n generalizing m with
  | nil =>
    cases m with
    | nil =>
      simp only [List.nil_append, List.cons.injEq, true_and] at h
      exact ⟨rfl, h⟩
    | cons y m2 =>
      simp only [List.nil_append, List.cons_append, List.cons.injEq] at h
      exact absurd (h.1 ▸ List.mem_cons_self _ _) hm
  | cons x n2 ih =>
    cases m with
    | nil =>
      simp only [List.nil_append, List.cons_append, List.cons.injEq] at h
      exact absurd (h.1 ▸ List.mem_cons_self _ _) hn
    | cons y m2 =>
      simp only [List.cons_append, List.cons.injEq] at h
      obtain ⟨h1, h2⟩ := ih m2 (fun hx => hn (List.mem_cons_of_mem _ hx))
        (fun hx => hm (List.mem_cons_of_mem _ hx)) h.2
      exact ⟨by rw [h.1, h1], h2⟩

theorem space_append_head (n m k k2 : String) (hn : SpaceFree n) (hm : SpaceFree m)
    (h : n ++ " " ++ k = m ++ " " ++ k2) : n = m := by
  have h2 := congrArg String.data h
  simp only [String.data_append, List.append_assoc] at h2
  exact String.ext (chars_append_space_inj n.data m.data k.data k2.data hn hm h2).1

theorem not_spaceFree_space_append (m k : String) : ¬ SpaceFree (m ++ " " ++ k) := by
  unfold SpaceFree
  simp only [String.data_append, not_not]
  apply List.mem_append_left
  apply List.mem_append_right
  decide

theorem labelOf_head (n m k k2 : String) (hn : SpaceFree n) (hm : SpaceFree m)
    (h : labelOf n k = labelOf m k2) : n = m := by
  unfold labelOf at h
  by_cases hk : k = "" <;> by_cases hk2 : k2 = ""
  · simpa [hk, hk2] using h
  · simp only [hk, hk2, ne_eq, not_true_eq_false, not_false_eq_true, if_true, if_false] at h
    exact absurd (h ▸ hn) (not_spaceFree_space_append m k2)
  · simp only [hk, hk2, ne_eq, not_true_eq_false, not_false_eq_true, if_true, if_false] at h
    exact absurd (h ▸ hm) (not_spaceFree_space_append n k)
  · simp only [hk, hk2, ne_eq, not_false_eq_true, if_true] at h
    exact space_append_head n m k k2 hn hm h

theorem mem_blockList (f : String → String → String) (subs : List (String × Command))
    (x : String) (h : x ∈ blockList f subs) : ∃ q ∈ subs, ∃ k, x = f q.1 k := by
  induction subs with
  | nil => simp [blockList] at h
  | cons p rest ih =>
    obtain ⟨n, c⟩ := p
    rw [blockList] at h
    rcases List.mem_append.1 h with h1 | h1
    · obtain ⟨k, _, hk⟩ := List.mem_map.1 h1
      exact ⟨(n, c), List.mem_cons_self _ _, k, hk.symm⟩
    · obtain ⟨q, hq, k, hk⟩ := ih h1
      exact ⟨q, List.mem_cons_of_mem _ hq, k, hk⟩

theorem nodup_blockList (f : String → String → String)
    (hinj : ∀ n, Function.Injective (f n))
    (hhead : ∀ n m k k2, SpaceFree n → SpaceFree m → f n k = f m k2 → n = m)
    (subs : List (String × Command))
    (hspace : ∀ n ∈ subs.map Prod.fst, SpaceFree n)
    (hdistinct : (subs.map Prod.fst).Nodup)
    (hkeys : ∀ q ∈ subs, (q.2.summaryEntries.map Prod.fst).Nodup) :
    (blockList f subs).Nodup := by
  induction subs with
  | nil => simp [blockList]
  | cons p rest ih =>
    obtain ⟨n, c⟩ := p
    rw [blockList]
    simp only [List.map_cons, List.nodup_cons] at hdistinct
    have hn : SpaceFree n := hspace n (by simp)
    have hrest : (blockList f rest).Nodup :=
      ih (fun m hm => hspace m (by simp only [List.map_cons]; exact List.mem_cons_of_mem _ hm))
        hdistinct.2 (fun q hq => hkeys q (List.mem_cons_of_mem _ hq))
    have hfirst : ((c.summaryEntries.map Prod.fst).map (f n)).Nodup :=
      (hkeys (n, c) (List.mem_cons_self _ _)).map (hinj n)
    refine List.nodup_append.2 ⟨hfirst, hrest, ?_⟩
    intro x hx1 hx2
    obtain ⟨k, _, hk⟩ := List.mem_map.1 hx1
    obtain ⟨q, hq, k2, hk2⟩ := mem_blockList f rest x hx2
    have hqs : SpaceFree q.1 :=
      hspace q.1 (by
        simp only [List.map_cons]
        exact List.mem_cons_of_mem _ (List.mem_map_of_mem Prod.fst hq))
    have hnq : n = q.1 := hhead n q.1 k k2 hn hqs (by rw [hk, hk2])
    exact hdistinct.1 (hnq ▸ List.mem_map_of_mem Prod.fst hq)

theorem keys_children_eq (subs : List (String × Command)) :
    ((Command.descendants.children subs).map (fun p => (summaryKey p.1, p.2.Summary))).map
        Prod.fst =
      blockList (fun n k => n ++ " " ++ k) subs := by
  induction subs with
  | nil => simp [Command.descendants.children, blockList]
  | cons p rest ih =>
    obtain ⟨n, c⟩ := p
    rw [summaryKey_children_cons, List.map_append, ih, blockList]
    simp [List.map_map, Function.comp_def]

theorem labels_children_eq (subs : List (String × Command)) :
    (Command.descendants.children subs).map (fun p => pathLabel p.1) =
      blockList labelOf subs := by
  induction subs with
  | nil => simp [Command.descendants.children, blockList]
  | cons p rest ih =>
    obtain ⟨n, c⟩ := p
    have h := congrArg (List.map Prod.fst) (pathLabel_children_cons n c rest)
    simp only [List.map_append, List.map_map, Function.comp_def] at h
    rw [h, ih, blockList]
    simp [List.map_map, Function.comp_def]

theorem NamesOK_self (c : Command) (h : NamesOK c) :
    (c.Subcommands.map Prod.fst).Nodup ∧ ∀ n ∈ c.Subcommands.map Prod.fst, SpaceFree n :=
  h ([], c) (List.mem_cons_self _ _)

theorem NamesOK_child (c sub : Command) (n : String) (h : NamesOK c)
    (hmem : (n, sub) ∈ c.Subcommands) : NamesOK sub := by
  obtain ⟨h1, h2⟩ := mem_children_of_mem c.Subcommands n sub hmem
  rw [← descendants_eq] at h1 h2
  intro p hp
  rcases List.mem_cons.1 hp with hp1 | hp1
  · subst hp1
    exact h ([n], sub) (List.mem_cons_of_mem _ h1)
  · exact h (n :: p.1, p.2) (List.mem_cons_of_mem _ (h2 p hp1))

theorem keys_nodup (c : Command) : NamesOK c → (c.summaryEntries.map Prod.fst).Nodup := by
  induction c using Command.induct with
  | step s d h subs ih =>
    intro hok
    obtain ⟨hdistinct, hspace⟩ := NamesOK_self _ hok
    rw [Command.summaryEntries, descendants_mk, List.map_cons, keys_children_eq]
    refine List.nodup_cons.2 ⟨?_, ?_⟩
    · intro hmem
      obtain ⟨q, _, k, hk⟩ := mem_blockList _ subs _ hmem
      exact space_append_ne_empty q.1 k hk.symm
    · exact nodup_blockList _ space_append_injective space_append_head subs hspace hdistinct
        (fun q hq => ih q hq (NamesOK_child _ q.2 q.1 hok hq))

theorem labels_nodup (c : Command) (hok : NamesOK c) :
    (c.descendants.map (fun p => pathLabel p.1)).Nodup := by
  obtain ⟨hdistinct, hspace⟩ := NamesOK_self _ hok
  rw [descendants_eq, labels_children_eq]
  exact nodup_blockList labelOf labelOf_injective labelOf_head c.Subcommands hspace hdistinct
    (fun q hq => keys_nodup q.2 (NamesOK_child c q.2 q.1 hok hq))

theorem listingLabels_nodup (c : Command) (hok : NamesOK c) : c.listingLabels.Nodup := by
  have hnd := labels_nodup c hok
  unfold Command.listingLabels
  rw [subcommandLabels_of_nodup c hnd]
  exact (List.perm_insertionSort _ _).nodup_iff.2 hnd

/-- C11 fails on the code: below the command with the reporting handler, `ban` is reached by
the path `admin`, `ban`; its line in the listing carries the label `admin ban ` with a
space at the end, and no line carries the label `admin ban`, the names joined by single
spaces. The label of the direct subcommand `admin` has no such space. -/
theorem nested_label_ends_in_space :
    echoOverGroup.follow ["admin", "ban"] = some banCommand ∧
    echoOverGroup.subcommandHelp =
      ["- `admin`: Administration.", "- `admin ban `: Bans a user."] ∧
    echoOverGroup.listingLabels = ["admin", "admin ban "] ∧
    String.intercalate " " ["admin", "ban"] = "admin ban" ∧
    "admin ban" ∉ echoOverGroup.listingLabels ∧
    (adminGroup.helpSummary = [("", "Administration."), ("ban ", "Bans a user.")]) ∧
    ∀ L : Lib, (echoOverGroup.HelpMessage L).Body =
      "Top.\n\n- `admin`: Administration.\n- `admin ban `: Bans a user." :=
  ⟨rfl, by decide, by decide, by decide, by decide, by decide, fun _ => rfl⟩

/-- C13 (as amended): the lines of the listing follow the order of their labels, which is
ascending for arbitrary names; when no name holds a space and the names under each command
differ, no label occurs twice. -/
theorem listing_sorted_by_label (c : Command) :
    c.subcommandHelp =
        c.listingLabels.map (fun n => "- `" ++ n ++ "`: " ++ mapGet c.subcommandLabels.2 n) ∧
      c.listingLabels.Sorted (fun a b => a.data ≤ b.data) ∧
      (NamesOK c → c.listingLabels.Nodup) :=
  ⟨rfl, sorted_sortStrings _, listingLabels_nodup c⟩

/-- The names `admin` and `ban` hold no space: the labels of the listing above `admin` are
sorted and distinct. -/
theorem listing_sorted_by_label_witness :
    NamesOK echoOverGroup ∧
    echoOverGroup.listingLabels = ["admin", "admin ban "] ∧
    echoOverGroup.listingLabels.Sorted (fun a b => a.data ≤ b.data) ∧
    echoOverGroup.listingLabels.Nodup :=
  ⟨by decide, by decide, (listing_sorted_by_label echoOverGroup).2.1,
   (listing_sorted_by_label echoOverGroup).2.2 (by decide)⟩

/-- C13 fails as stated: with the name `a b`, the command `c` below `a b` and the command
`c` below `a`, `b` get the same label, which the listing carries twice. -/
theorem listing_repeats_label :
    clashTree.descendants.map (fun p => p.1) =
      [["a b"], ["a b", "c"], ["a"], ["a", "b"], ["a", "b", "c"]] ∧
    clashTree.listingLabels = ["a", "a b", "a b ", "a b c ", "a b c "] ∧
    clashTree.subcommandHelp.length = 5 ∧
    ¬ clashTree.listingLabels.Nodup :=
  ⟨by decide, by decide, by decide, by decide⟩

/-! ## Lemmas on trimming, splitting and joining -/

theorem intercalate_go_data (acc s : String) (l : List String) :
    (String.intercalate.go acc s l).data =
      acc.data ++ (l.map (fun a => s.data ++ a.data)).flatten := by
  induction l generalizing acc with
  | nil => simp [String.intercalate.go]
  | cons a rest ih =>
    rw [String.intercalate.go, ih]
    simp [String.data_append, List.append_assoc]

theorem intercalate_cons_data (s a : String) (l : List String) :
    (String.intercalate s (a :: l)).data =
      a.data ++ (l.map (fun b => s.data ++ b.data)).flatten := by
  rw [String.intercalate, intercalate_go_data]

theorem splitOnSpace_join (l : List Char) :
    ∃ piece pieces, splitOnSpace l = piece :: pieces ∧
      piece ++ (pieces.map (fun q => Char.ofNat 0x20 :: q)).flatten = l := by
  induction l with
  | nil => exact ⟨[], [], rfl, rfl⟩
  | cons r rest ih =>
    obtain ⟨piece, pieces, hsplit, hjoin⟩ := ih
    by_cases hr : r.toNat = 0x20
    · refine ⟨[], piece :: pieces, by simp [splitOnSpace, hr, hsplit], ?_⟩
      have hchar : r = Char.ofNat 0x20 := by
        apply Char.ext
        apply UInt32.ext
        simpa [Char.toNat] using hr
      simp only [List.map_cons, List.flatten_cons, List.nil_append, List.cons_append]
      rw [hjoin, hchar]
    · refine ⟨r :: piece, pieces, by simp [splitOnSpace, hr, hsplit], ?_⟩
      simp only [List.cons_append]
      rw [hjoin]

theorem splitOnSpace_ne_nil (l : List Char) : splitOnSpace l ≠ [] := by
  obtain ⟨piece, pieces, hsplit, _⟩ := splitOnSpace_join l
  rw [hsplit]
  exact List.cons_ne_nil _ _

theorem splitOnSpace_spaceFree (l : List Char) :
    ∀ piece ∈ splitOnSpace l, Char.ofNat 0x20 ∉ piece := by
  induction l with
  | nil =>
    intro piece hp
    simp only [splitOnSpace, List.mem_singleton] at hp
    rw [hp]
    exact List.not_mem_nil _
  | cons r rest ih =>
    obtain ⟨first, others, hsplit, _⟩ := splitOnSpace_join rest
    intro piece hp
    by_cases hr : r.toNat = 0x20
    · simp only [splitOnSpace, hr, if_true] at hp
      rcases List.mem_cons.1 hp with h1 | h1
      · rw [h1]
        exact List.not_mem_nil _
      · exact ih piece h1
    · simp only [splitOnSpace, hr, if_false, hsplit] at hp
      rcases List.mem_cons.1 hp with h1 | h1
      · rw [h1]
        intro hmem
        rcases List.mem_cons.1 hmem with h2 | h2
        · exact hr (by rw [← h2]; rfl)
        · exact ih first (by rw [hsplit]; exact List.mem_cons_self _ _) h2
      · exact ih piece (by rw [hsplit]; exact List.mem_cons_of_mem _ h1)

theorem splitOnSpace_cons_space (r : Char) (rest : List Char) (hr : r.toNat = 0x20) :
    splitOnSpace (r :: rest) = [] :: splitOnSpace rest := by
  simp [splitOnSpace, hr]

theorem splitOnSpace_cons_other (r : Char) (rest first : List Char)
    (others : List (List Char)) (hr : ¬ r.toNat = 0x20)
    (hsplit : splitOnSpace rest = first :: others) :
    splitOnSpace (r :: rest) = (r :: first) :: others := by
  simp [splitOnSpace, hr, hsplit]

theorem splitOnSpace_append (a b : List Char) :
    splitOnSpace (a ++ Char.ofNat 0x20 :: b) = splitOnSpace a ++ splitOnSpace b := by
  induction a with
  | nil => simp [splitOnSpace]
  | cons r rest ih =>
    obtain ⟨first, others, hsplit, _⟩ := splitOnSpace_join rest
    rw [List.cons_append]
    by_cases hr : r.toNat = 0x20
    · rw [splitOnSpace_cons_space r _ hr, splitOnSpace_cons_space r _ hr, ih, List.cons_append]
    · rw [splitOnSpace_cons_other r rest first others hr hsplit,
        splitOnSpace_cons_other r _ first (others ++ splitOnSpace b) hr
          (by rw [ih, hsplit, List.cons_append]),
        List.cons_append]

theorem SplitSpace_ne_nil (s : String) : SplitSpace s ≠ [] := by
  unfold SplitSpace
  intro h
  exact splitOnSpace_ne_nil s.data (List.map_eq_nil_iff.1 h)

theorem SplitSpace_spaceFree (s : String) : ∀ token ∈ SplitSpace s, SpaceFree token := by
  intro token htoken
  unfold SplitSpace at htoken
  obtain ⟨piece, hpiece, hmk⟩ := List.mem_map.1 htoken
  rw [← hmk]
  exact splitOnSpace_spaceFree s.data piece hpiece

theorem SplitSpace_join (s : String) : String.intercalate " " (SplitSpace s) = s := by
  obtain ⟨piece, pieces, hsplit, hjoin⟩ := splitOnSpace_join s.data
  apply String.ext
  unfold SplitSpace
  rw [hsplit, List.map_cons, intercalate_cons_data, List.map_map]
  have hspace : (" " : String).data = [Char.ofNat 0x20] := rfl
  simp only [hspace, Function.comp_def, List.singleton_append]
  exact hjoin

theorem SplitSpace_append (a b : String) :
    SplitSpace (a ++ " " ++ b) = SplitSpace a ++ SplitSpace b := by
  unfold SplitSpace
  have hdata : (a ++ " " ++ b).data = a.data ++ Char.ofNat 0x20 :: b.data := by
    simp [String.data_append]
  rw [hdata, splitOnSpace_append, List.map_append]

theorem TrimSpace_of_all_space (L : Lib) (t : String)
    (h : ∀ r ∈ t.data, IsSpace L r = true) : TrimSpace L t = "" := by
  unfold TrimSpace
  have hdrop : t.data.dropWhile (IsSpace L) = [] := List.dropWhile_eq_nil_iff.2 h
  rw [hdrop]
  rfl

theorem rdropWhile_append_rtakeWhile (p : Char → Bool) (l : List Char) :
    l.rdropWhile p ++ l.rtakeWhile p = l := by
  unfold List.rdropWhile List.rtakeWhile
  rw [← List.reverse_append, List.takeWhile_append_dropWhile, List.reverse_reverse]

theorem TrimSpace_surrounding (L : Lib) (t : String) :
    ∃ front back : List Char,
      t.data = front ++ (TrimSpace L t).data ++ back ∧
        (∀ r ∈ front, IsSpace L r = true) ∧ ∀ r ∈ back, IsSpace L r = true := by
  refine ⟨t.data.takeWhile (IsSpace L), (t.data.dropWhile (IsSpace L)).rtakeWhile (IsSpace L),
    ?_, ?_, ?_⟩
  · unfold TrimSpace
    simp only [List.append_assoc, rdropWhile_append_rtakeWhile,
      List.takeWhile_append_dropWhile]
  · intro r hr
    exact List.mem_takeWhile_imp hr
  · intro r hr
    exact List.mem_rtakeWhile_imp hr

theorem TrimSpace_ends (L : Lib) (t : String) :
    (∀ r, (TrimSpace L t).data.head? = some r → IsSpace L r = false) ∧
      ∀ r, (TrimSpace L t).data.getLast? = some r → IsSpace L r = false := by
  unfold TrimSpace
  simp only
  constructor
  · intro r hr
    obtain ⟨back, hback⟩ := List.rdropWhile_prefix (IsSpace L) (l := t.data.dropWhile (IsSpace L))
    have hhead : (t.data.dropWhile (IsSpace L)).head? = some r := by
      rw [← hback]
      cases hd : (t.data.dropWhile (IsSpace L)).rdropWhile (IsSpace L) with
      | nil => rw [hd] at hr; simp at hr
      | cons x xs => rw [hd] at hr; simpa using hr
    have hnot := List.head?_dropWhile_not (IsSpace L) t.data
    rw [hhead] at hnot
    simpa using hnot
  · intro r hr
    by_cases hnil : (t.data.dropWhile (IsSpace L)).rdropWhile (IsSpace L) = []
    · rw [hnil] at hr
      simp at hr
    · have hnot := List.rdropWhile_last_not (IsSpace L) (t.data.dropWhile (IsSpace L)) hnil
      rw [List.getLast?_eq_getLast _ hnil] at hr
      have hr2 : ((t.data.dropWhile (IsSpace L)).rdropWhile (IsSpace L)).getLast hnil = r := by
        simpa using hr
      rw [hr2] at hnot
      simpa using hnot

theorem SplitSpace_double_space (a b : String) :
    SplitSpace (a ++ " " ++ " " ++ b) = SplitSpace a ++ "" :: SplitSpace b := by
  have h : a ++ " " ++ " " ++ b = (a ++ " " ++ "") ++ " " ++ b := by
    apply String.ext
    simp [String.data_append]
  rw [h, SplitSpace_append, SplitSpace_append]
  simp [SplitSpace, splitOnSpace]

/-- C21: `handleTextMessage` passes to the root command the text trimmed of the white space
around it and split at every single space. The sequence of tokens is never empty, no token
holds a space, and the tokens joined by single spaces are the trimmed text; two spaces in a
row give an empty token between them, and a text of white space only gives the single empty
token. -/
theorem handleTextMessage_tokens (L : Lib) (c : Client) (sender t : String) :
    c.handleTextMessage L sender t =
        (c.rootCommand L).Execute L sender "" (SplitSpace (TrimSpace L t)) ∧
    (∃ front back : List Char,
      t.data = front ++ (TrimSpace L t).data ++ back ∧
        (∀ r ∈ front, IsSpace L r = true) ∧ ∀ r ∈ back, IsSpace L r = true) ∧
    (∀ r, (TrimSpace L t).data.head? = some r → IsSpace L r = false) ∧
    (∀ r, (TrimSpace L t).data.getLast? = some r → IsSpace L r = false) ∧
    SplitSpace (TrimSpace L t) ≠ [] ∧
    (∀ token ∈ SplitSpace (TrimSpace L t), SpaceFree token) ∧
    String.intercalate " " (SplitSpace (TrimSpace L t)) = TrimSpace L t ∧
    (∀ a b : String, TrimSpace L t = a ++ " " ++ " " ++ b →
      SplitSpace (TrimSpace L t) = SplitSpace a ++ "" :: SplitSpace b) ∧
    ((∀ r ∈ t.data, IsSpace L r = true) → SplitSpace (TrimSpace L t) = [""]) := by
  refine ⟨rfl, TrimSpace_surrounding L t, (TrimSpace_ends L t).1, (TrimSpace_ends L t).2,
    SplitSpace_ne_nil _, SplitSpace_spaceFree _, SplitSpace_join _, ?_, ?_⟩
  · intro a b h
    rw [h]
    exact SplitSpace_double_space a b
  · intro h
    rw [TrimSpace_of_all_space L t h]
    rfl

/-- The text `ban`, two spaces, `userX` with white space around it gives the tokens `ban`,
the empty token and `userX`, which joined by spaces are the trimmed text; a text of a space, a
tab and a newline gives the single empty token. -/
theorem handleTextMessage_tokens_witness :
    (∀ L : Lib, TrimSpace L "  ban  userX \n" = "ban  userX") ∧
    (∀ L : Lib, SplitSpace (TrimSpace L "  ban  userX \n") = ["ban", "", "userX"]) ∧
    (∀ L : Lib,
      String.intercalate " " (SplitSpace (TrimSpace L "  ban  userX \n")) = "ban  userX") ∧
    (∀ L : Lib, SplitSpace (TrimSpace L " \t\n") = [""]) ∧
    ∀ L : Lib,
      (clientWith [("admin", adminCommand)]).handleTextMessage L "@alice:example.org"
          " admin ban userX " =
        echoHandler "@alice:example.org" "ban" ["userX"] :=
  ⟨fun _ => rfl, fun _ => rfl,
   fun L =>
    (handleTextMessage_tokens L (clientWith []) "@alice:example.org"
      "  ban  userX \n").2.2.2.2.2.2.1.trans rfl,
   fun _ => rfl, fun _ => rfl⟩

end MatrixBot
